import Mathlib

/-! Verification of the Hybrid Retrieval Engine (`rag_retrieval` package).

This file gives a shallow embedding, in Lean 4, of the pure retrieval core:

* `rrf.py`          — Reciprocal Rank Fusion of dense and sparse hit lists;
* `text_utils.py`   — `truncate_text` and term-coverage checking;
* `retriever.py`    — the adaptive `retrieve_and_rerank` loop and
                      `_apply_diversity` selection;
* `qdrant_store.py` — `_build_filter` over `RetrievalFilters`;
* `types.py`        — the `SearchHit` / `ContextChunk` data model.

Modelling conventions:

* Python `float` scores are embedded as exact rationals (`ℚ`).  Every
  comparison the theorems below depend on (RRF score sums, the
  `coverage_ratio < 0.4` test, the `last_space > max_chars * 0.8` test,
  `int(n * 1.2)`) is insensitive to double rounding at the argument sizes the
  program uses, so the rational embedding computes the same branch as CPython;
  the few places where a float is only formatted into a string model the
  decimal formatting directly on ℚ.
* Python `str` is embedded as `String`/`List Char` (a sequence of code
  points, as in CPython).
* Python dicts used as keyed accumulators are embedded as insertion-ordered
  association lists (`List (key × value)`) with Python's assignment
  semantics: update in place if the key is present, append otherwise.
* The external collaborators (Qdrant dense search, the BM25 index, the
  cross-encoder reranker) are injected into `HybridRetriever` in the source;
  here they are fields of a `Stores` record of pure functions, and the
  embedded orchestrator records, in a `trace`, the `TopKConfig` actually
  passed to the search calls of each executed loop iteration.
-/

set_option maxHeartbeats 1000000
set_option synthInstance.maxHeartbeats 400000

namespace RagRetrieval

/-! Part: Data model (`types.py`) -/

/-- Embedding of the open `payload: dict[str, Any]` carried by a `SearchHit`.
Only the keys the retrieval core itself reads or writes are modelled
(`dense_rank`, `dense_score`, `sparse_rank`, `sparse_score`, `rrf_score`,
`title`, `url`, `source_id`); an absent dict key is `none`. -/
structure Payload where
  dense_rank : Option Nat
  dense_score : Option ℚ
  sparse_rank : Option Nat
  sparse_score : Option ℚ
  rrf_score : Option ℚ
  title : Option String
  url : Option String
  source_id : Option String
  deriving Repr, DecidableEq

/-- A payload dict with none of the modelled keys present. -/
def Payload.empty : Payload :=
  ⟨none, none, none, none, none, none, none, none⟩

/-- Embedding of `types.SearchHit`: one retrieval candidate.  The opaque `id: str | int`
handle is embedded as a `Nat`; no claim inspects it. -/
structure SearchHit where
  id : Nat
  doc_id : String
  chunk_id : Int
  text : String
  score : ℚ
  source : String
  payload : Payload
  deriving Repr, DecidableEq

/-- The dedup key `(doc_id, chunk_id)` used throughout fusion and
diversity selection. -/
abbrev Key := String × Int

def SearchHit.key (h : SearchHit) : Key := (h.doc_id, h.chunk_id)

/-- Embedding of `types.ContextChunk`: one finally-selected passage. -/
structure ContextChunk where
  doc_id : String
  chunk_id : Int
  text : String
  title : Option String
  url : Option String
  source_id : String
  score : ℚ
  rank : Nat
  why_picked : String
  deriving Repr, DecidableEq

/-! Part: Insertion-ordered dictionary (Python `dict`) -/

/-- First value stored under key `κ`, if any (Python `key in d` / `d[key]`). -/
def lookupKey {α : Type} (κ : Key) : List (Key × α) → Option α
  | [] => none
  | (k, v) :: rest => if k = κ then some v else lookupKey κ rest

/-- Python dict assignment `d[κ] = v`: overwrite in place when the key is
present, append at the end otherwise (insertion order preserved). -/
def dictSet {α : Type} (κ : Key) (v : α) : List (Key × α) → List (Key × α)
  | [] => [(κ, v)]
  | (k, w) :: rest => if k = κ then (k, v) :: rest else (k, w) :: dictSet κ v rest

/-! Part: `rrf.py` — Reciprocal Rank Fusion -/

/-- Embedding of `rrf.rrf_score_single`: `1.0 / (k + rank)`.  Source defaults: `k = 60`.
(For `rank ≥ 1` and `k ≥ 0` the denominator is positive; a negative Python
`k` could raise `ZeroDivisionError`, which no caller exercises, so the
constant is embedded as a `Nat`.) -/
def rrf_score_single (rank : Nat) (k : Nat) : ℚ :=
  1 / ((k : ℚ) + (rank : ℚ))

/-- The `score_map` accumulator of `rrf_fuse`:
key `(doc_id, chunk_id)` ↦ `(accumulated_score, best_hit)`. -/
abbrev ScoreMap := List (Key × (ℚ × SearchHit))

/-- The first `for rank, hit in enumerate(dense_hits, start=1)` loop of
`rrf_fuse`: accumulate `1/(k+rank)` per key; on first sight of a key, store a
fresh hit with `source="fused"` and the dense rank/score recorded in the
payload. -/
def processDense (rrf_k : Nat) : Nat → ScoreMap → List SearchHit → ScoreMap
  | _, m, [] => m
  | rank, m, hit :: rest =>
    let κ := hit.key
    let rrfScore := rrf_score_single rank rrf_k
    let m' :=
      match lookupKey κ m with
      | some (currentScore, currentHit) => dictSet κ (currentScore + rrfScore, currentHit) m
      | none =>
        let fusedHit : SearchHit :=
          { id := hit.id, doc_id := hit.doc_id, chunk_id := hit.chunk_id,
            text := hit.text, score := 0, source := "fused",
            payload := { hit.payload with dense_rank := some rank, dense_score := some hit.score } }
        dictSet κ (rrfScore, fusedHit) m
    processDense rrf_k (rank + 1) m' rest

/-- The second `for rank, hit in enumerate(sparse_hits, start=1)` loop of
`rrf_fuse`: like the dense loop, but an already-present surviving hit gets
`sparse_rank`/`sparse_score` added to its payload. -/
def processSparse (rrf_k : Nat) : Nat → ScoreMap → List SearchHit → ScoreMap
  | _, m, [] => m
  | rank, m, hit :: rest =>
    let κ := hit.key
    let rrfScore := rrf_score_single rank rrf_k
    let m' :=
      match lookupKey κ m with
      | some (currentScore, currentHit) =>
        let currentHit' :=
          { currentHit with payload :=
              { currentHit.payload with sparse_rank := some rank, sparse_score := some hit.score } }
        dictSet κ (currentScore + rrfScore, currentHit') m
      | none =>
        let fusedHit : SearchHit :=
          { id := hit.id, doc_id := hit.doc_id, chunk_id := hit.chunk_id,
            text := hit.text, score := 0, source := "fused",
            payload := { hit.payload with sparse_rank := some rank, sparse_score := some hit.score } }
        dictSet κ (rrfScore, fusedHit) m
    processSparse rrf_k (rank + 1) m' rest

/-- The final `for ... in score_map.items()` loop: write the accumulated RRF
score into `hit.score` and `payload["rrf_score"]`. -/
def finalizeHits (m : ScoreMap) : List SearchHit :=
  m.map fun e => { e.2.2 with score := e.2.1, payload := { e.2.2.payload with rrf_score := some e.2.1 } }

/-- One step of Python's stable `list.sort(key=score, reverse=True)`:
insert `x` before the first element of strictly smaller score, after all
earlier elements of greater-or-equal score (equal scores keep input order,
as `sort` is stable). -/
def insertByScore (x : SearchHit) : List SearchHit → List SearchHit
  | [] => [x]
  | y :: ys => if y.score ≤ x.score then x :: y :: ys else y :: insertByScore x ys

/-- Stable descending sort by `score` (`fused_results.sort(key=..., reverse=True)`). -/
def sortByScoreDesc : List SearchHit → List SearchHit
  | [] => []
  | x :: xs => insertByScore x (sortByScoreDesc xs)

/-- The `if dedupe:` pass of `rrf_fuse`: keep the first occurrence of each
`(doc_id, chunk_id)` key, tracked in the `seen` set. -/
def dedupeByKey (seen : List Key) : List SearchHit → List SearchHit
  | [] => []
  | h :: rest =>
    if h.key ∈ seen then dedupeByKey seen rest
    else h :: dedupeByKey (h.key :: seen) rest

/-- Embedding of `rrf.rrf_fuse(dense_hits, sparse_hits, rrf_k, top_k_fused, dedupe)`.
Source defaults: `rrf_k = 60`, `top_k_fused = 80`, `dedupe = True`. -/
def rrf_fuse (dense_hits sparse_hits : List SearchHit) (rrf_k : Nat)
    (top_k_fused : Nat) (dedupe : Bool) : List SearchHit :=
  let m := processSparse rrf_k 1 (processDense rrf_k 1 [] dense_hits) sparse_hits
  let fused := sortByScoreDesc (finalizeHits m)
  let fused := if dedupe then dedupeByKey [] fused else fused
  fused.take top_k_fused

/-- Accumulated RRF score that `rrf_fuse` assigns to key `κ` (the `score_map`
entry before sorting/truncation), if the key occurs in either input. -/
def fusedScoreOf (dense_hits sparse_hits : List SearchHit) (rrf_k : Nat) (κ : Key) : Option ℚ :=
  (lookupKey κ (processSparse rrf_k 1 (processDense rrf_k 1 [] dense_hits) sparse_hits)).map Prod.fst

/-! Part: `text_utils.py` — truncation and term coverage -/

/-- Embedding of `text.rfind(' ')` on a list of characters: index of the last space, or
`none` where Python returns `-1`. -/
def rfindSpaceAux : List Char → Nat → Option Nat → Option Nat
  | [], _, acc => acc
  | c :: rest, i, acc => rfindSpaceAux rest (i + 1) (if c = ' ' then some i else acc)

def rfindSpace (l : List Char) : Option Nat :=
  rfindSpaceAux l 0 none

/-- Embedding of `text_utils.truncate_text` on the character sequence of the text.
The float test `last_space > max_chars * 0.8` is embedded as the exact
comparison `5 * last_space > 4 * max_chars` (for the integer operand sizes
the program uses, the double computation decides the same way), and the
absent-space result `-1` falls into the `none` branch, where `-1 > 0.8·max`
is false. -/
def truncateChars (text : List Char) (max_chars : Nat) : List Char :=
  if text.length ≤ max_chars then text
  else
    let truncated := text.take max_chars
    match rfindSpace truncated with
    | some last_space =>
      if 5 * last_space > 4 * max_chars then truncated.take last_space ++ "...".data
      else truncated ++ "...".data
    | none => truncated ++ "...".data

/-- Embedding of `text_utils.truncate_text(text, max_chars)`.  Source default:
`max_chars = 1600`. -/
def truncate_text (text : String) (max_chars : Nat) : String :=
  ⟨truncateChars text.data max_chars⟩

/-- Python `str.lower()` (the texts the claims exercise are ASCII, where
`Char.toLower` agrees with CPython), mapped over the string's characters. -/
def pyLower (s : String) : String :=
  ⟨s.data.map Char.toLower⟩

/-- Python substring test `needle in hay` on character sequences
(an empty needle is a substring of everything). -/
def isSubstr (needle hay : List Char) : Bool :=
  (List.range (hay.length + 1)).any fun i => needle.isPrefixOf (hay.drop i)

/-- Embedding of `text_utils.check_term_coverage(text, terms)`:
`(number of terms that occur in text.lower(), total number of terms)`. -/
def check_term_coverage (text : String) (terms : List String) : Nat × Nat :=
  if terms = [] then (0, 0)
  else
    let text_lower := pyLower text
    (terms.countP fun t => isSubstr t.data text_lower.data, terms.length)

/-! Part: `retriever._apply_diversity` — diversity selection -/

/-- Python truthiness of `payload.get("dense_rank")` /
`payload.get("sparse_rank")`: absent or `0` is falsy. -/
def pyTruthyNat : Option Nat → Bool
  | none => false
  | some n => n ≠ 0

/-- Python `", ".join(parts)`. -/
def pyJoin (sep : String) : List String → String
  | [] => ""
  | [x] => x
  | x :: y :: rest => x ++ sep ++ pyJoin sep (y :: rest)

/-- Model of the f-string `f"{score:.3f}"`: the score rounded to three
decimal places and rendered with exactly three fraction digits.  (CPython
rounds the nearest double; the claims only ever compare the result against
the fixed tag `"added for diversity"`, which no numeric rendering equals.) -/
def formatScore3 (q : ℚ) : String :=
  let n : Int := round (q * 1000)
  let sign := if n < 0 then "-" else ""
  let m := n.natAbs
  let frac := m % 1000
  let fracStr := (if frac < 10 then "00" else if frac < 100 then "0" else "") ++ toString frac
  sign ++ toString (m / 1000) ++ "." ++ fracStr

/-- The `why_picked` provenance string built for a primary-pass admission:
`"dense #r"` and/or `"sparse #r"` when those payload ranks are truthy,
always ending in `"rerank score X.XXX"`, joined with `", "`. -/
def whyPickedFor (hit : SearchHit) : String :=
  let parts :=
    (if pyTruthyNat hit.payload.dense_rank then
      ["dense #" ++ toString (hit.payload.dense_rank.getD 0)] else []) ++
    (if pyTruthyNat hit.payload.sparse_rank then
      ["sparse #" ++ toString (hit.payload.sparse_rank.getD 0)] else []) ++
    ["rerank score " ++ formatScore3 hit.score]
  pyJoin ", " parts

/-- Construction of a `ContextChunk` from an admitted hit
(`truncate_text`, payload fields, `rank = len(result) + 1`). -/
def hitToChunk (hit : SearchHit) (max_chars : Nat) (rank : Nat) (why : String) : ContextChunk :=
  { doc_id := hit.doc_id, chunk_id := hit.chunk_id,
    text := truncate_text hit.text max_chars,
    title := hit.payload.title, url := hit.payload.url,
    source_id := hit.payload.source_id.getD "",
    score := hit.score, rank := rank, why_picked := why }

/-- The primary pass of `_apply_diversity`: walk the ranked hits, skip a hit
whose document already has `max_per_doc` admissions, otherwise bump
`doc_counts`, add the document to `docs_seen`, and append a chunk with
`rank = len(result) + 1`.  `doc_counts` is embedded as a total function with
default `0` (`doc_counts.get(doc_id, 0)`); `docs_seen` as a duplicate-free
list so that its length is the set's cardinality.
Returns `(doc_counts, docs_seen, result)`. -/
def diversityPrimary (max_per_doc max_chars : Nat) :
    List SearchHit → (String → Nat) → List String → List ContextChunk →
    ((String → Nat) × List String × List ContextChunk)
  | [], counts, seen, result => (counts, seen, result)
  | hit :: rest, counts, seen, result =>
    if max_per_doc ≤ counts hit.doc_id then
      diversityPrimary max_per_doc max_chars rest counts seen result
    else
      let counts' := fun d => if d = hit.doc_id then counts hit.doc_id + 1 else counts d
      let seen' := if hit.doc_id ∈ seen then seen else hit.doc_id :: seen
      let chunk := hitToChunk hit max_chars (result.length + 1) (whyPickedFor hit)
      diversityPrimary max_per_doc max_chars rest counts' seen' (result ++ [chunk])

/-- The forced minimum-docs pass of `_apply_diversity`: walk all hits again,
admit one hit per document not yet in `docs_seen`, tagged
`"added for diversity"`, and stop as soon as `len(docs_seen) >= min_docs`. -/
def diversityForce (min_docs max_chars : Nat) :
    List SearchHit → (String → Nat) → List String → List ContextChunk →
    (List String × List ContextChunk)
  | [], _, seen, result => (seen, result)
  | hit :: rest, counts, seen, result =>
    if hit.doc_id ∈ seen then diversityForce min_docs max_chars rest counts seen result
    else
      let seen' := hit.doc_id :: seen
      let counts' := fun d => if d = hit.doc_id then 1 else counts d
      let chunk := hitToChunk hit max_chars (result.length + 1) "added for diversity"
      let result' := result ++ [chunk]
      if min_docs ≤ seen'.length then (seen', result')
      else diversityForce min_docs max_chars rest counts' seen' result'

/-- Embedding of `HybridRetriever._apply_diversity(hits, max_per_doc, min_docs,
max_chars_per_chunk, query)`.  (The `query` argument is unused in the
source body and is omitted here.) -/
def apply_diversity (hits : List SearchHit) (max_per_doc min_docs max_chars : Nat) :
    List ContextChunk :=
  match diversityPrimary max_per_doc max_chars hits (fun _ => 0) [] [] with
  | (counts, seen, result) =>
    if seen.length < min_docs then (diversityForce min_docs max_chars hits counts seen result).2
    else result

/-! Part: `types.RetrievalFilters` and `qdrant_store._build_filter` -/

/-- Python truthiness of an optional string field (`None` and `""` falsy). -/
def pyTruthyStr : Option String → Bool
  | none => false
  | some s => s ≠ ""

/-- Python truthiness of an optional list field (`None` and `[]` falsy). -/
def pyTruthyList : Option (List String) → Bool
  | none => false
  | some l => l ≠ []

/-- Embedding of `types.RetrievalFilters`: the six optional filter fields.  (This is the
complete field list of the dataclass; in particular there is no `source`
field.) -/
structure RetrievalFilters where
  tenant_id : Option String
  tags : Option (List String)
  source_id : Option String
  doc_id : Option String
  date_from : Option String
  date_to : Option String
  deriving Repr, DecidableEq

/-- The all-`None` filters value `RetrievalFilters()`. -/
def RetrievalFilters.empty : RetrievalFilters :=
  ⟨none, none, none, none, none, none⟩

/-- Embedding of `RetrievalFilters.is_empty`: `not any([...])` over the six fields. -/
def RetrievalFilters.is_empty (f : RetrievalFilters) : Bool :=
  !(pyTruthyStr f.tenant_id || pyTruthyList f.tags || pyTruthyStr f.source_id ||
    pyTruthyStr f.doc_id || pyTruthyStr f.date_from || pyTruthyStr f.date_to)

/-- One Qdrant `FieldCondition` as `_build_filter` constructs it. -/
inductive FieldCond where
  | matchValue (key : String) (value : String)
  | matchAny (key : String) (values : List String)
  | range (key : String) (gte lte : Option String)
  deriving Repr, DecidableEq

/-- A Qdrant `Filter(must=conditions)`. -/
structure QdrantFilter where
  must : List FieldCond
  deriving Repr, DecidableEq

/-- Embedding of `QdrantStore._build_filter(filters)`.  The source returns `None` for an
absent or empty filters value; for every other value, after appending the
`tenant_id`, `source_id`, `doc_id` and `tags` conditions, line 168 of
`qdrant_store.py` reads `filters.source` — an attribute the
`RetrievalFilters` dataclass does not define — so CPython raises
`AttributeError` there; the embedding returns it as an `Except.error`.
(`filters.doc_id` is typed `Optional[str]`, so its `isinstance(…, list)`
branch is never taken and the `MatchValue` arm with key `"source"` is
modelled.) -/
def build_filter (filters : Option RetrievalFilters) : Except String (Option QdrantFilter) :=
  match filters with
  | none => .ok none
  | some f =>
    if f.is_empty then .ok none
    else
      let conditions : List FieldCond :=
        (if pyTruthyStr f.tenant_id then [.matchValue "tenant_id" (f.tenant_id.getD "")] else []) ++
        (if pyTruthyStr f.source_id then [.matchValue "source_id" (f.source_id.getD "")] else []) ++
        (if pyTruthyStr f.doc_id then [.matchValue "source" (f.doc_id.getD "")] else []) ++
        (if pyTruthyList f.tags then [.matchAny "tags" (f.tags.getD [])] else [])
      let _ := conditions
      .error "AttributeError: RetrievalFilters object has no attribute source"

/-! Part: `retriever.py` — the adaptive retrieve-and-rerank loop -/

/-- Embedding of `retriever.TopKConfig`.  Source defaults: dense 60, sparse 60, fused 80,
rerank 12. -/
structure TopKConfig where
  dense : Nat
  sparse : Nat
  fused : Nat
  rerank : Nat
  deriving Repr, DecidableEq

def TopKConfig.default : TopKConfig := ⟨60, 60, 80, 12⟩

/-- Embedding of `retriever.DiversityConfig`.  Source defaults: max_per_doc 3, min_docs 3. -/
structure DiversityConfig where
  max_per_doc : Nat
  min_docs : Nat
  deriving Repr, DecidableEq

def DiversityConfig.default : DiversityConfig := ⟨3, 3⟩

/-- The three injected collaborators of `HybridRetriever`, as pure functions:
dense search `(dense_query, top_k) ↦ hits`, sparse search
`(sparse_query, top_k) ↦ hits` (both already closed over the request's
filters), and the reranker `(query, hits, top_k) ↦ hits`. -/
structure Stores where
  denseSearch : String → Nat → List SearchHit
  sparseSearch : String → Nat → List SearchHit
  rerankFn : String → List SearchHit → Nat → List SearchHit

/-- The `debug.params` dict, filled once before the iteration loop from the
resolved configuration.  The ints are copied by value into the dict, so the
snapshot is not affected by later mutation of `topk`. -/
structure ParamsSnapshot where
  topk : TopKConfig
  rrf_k : Nat
  max_iters : Int
  diversity : DiversityConfig
  deriving Repr, DecidableEq

/-- Embedding of `types.DebugInfo`, restricted to the parts the claims observe: the stage
counts, the `params` snapshot and the `notes` list.  (The wall-clock
`timings` dict is real time and is not modelled.) -/
structure DebugInfoM where
  dense_n : Nat
  sparse_n : Nat
  fused_n : Nat
  reranked_n : Nat
  final_n : Nat
  params : Option ParamsSnapshot
  notes : List String
  deriving Repr, DecidableEq

def DebugInfoM.init : DebugInfoM :=
  ⟨0, 0, 0, 0, 0, none, []⟩

/-- Percentage with one decimal place: model of the f-string
`f"{ratio:.1%}"`. -/
def formatPct1 (q : ℚ) : String :=
  let n : Int := round (q * 1000)
  let sign := if n < 0 then "-" else ""
  let m := n.natAbs
  sign ++ toString (m / 10) ++ "." ++ toString (m % 10) ++ "%"

/-- The note `f"Iteration {i}: weak coverage ({ratio:.1%}), expanding search"`
added when the adaptive loop widens the pools. -/
def expansionNote (iter : Nat) (q : ℚ) : String :=
  "Iteration " ++ toString iter ++ ": weak coverage (" ++ formatPct1 q ++ "), expanding search"

/-- The note `f"Must-have terms: {terms}"` (the Python list repr of the terms
is abstracted to a plain comma-separated rendering; no claim reads it). -/
def mustTermsNote (terms : List String) : String :=
  "Must-have terms: [" ++ pyJoin ", " terms ++ "]"

/-- The note `f"Used {i} iterations"`. -/
def usedIterationsNote (iter : Nat) : String :=
  "Used " ++ toString iter ++ " iterations"

/-- Embedding of `int(n * 1.2)`, the pool-widening step.  For every pool size the program
can hold (far below 2^49) the double product `n * 1.2` lies within half an
ulp of `6n/5`, so truncation toward zero yields exactly `⌊6n/5⌋`. -/
def widen (n : Nat) : Nat := n * 6 / 5

/-- The intermediate lists of one dense→sparse→fuse→rerank cycle
(steps 2–5 of `retrieve_and_rerank`). -/
structure CycleOut where
  dense : List SearchHit
  sparse : List SearchHit
  fused : List SearchHit
  reranked : List SearchHit

/-- One loop iteration's searches, fusion (`rrf_fuse` with `dedupe=True`
default) and rerank. -/
def runCycle (st : Stores) (query dense_query sparse_query : String)
    (tk : TopKConfig) (rrf_k : Nat) : CycleOut :=
  let dense := st.denseSearch dense_query tk.dense
  let sparse := st.sparseSearch sparse_query tk.sparse
  let fused := rrf_fuse dense sparse rrf_k tk.fused true
  let reranked := st.rerankFn query fused tk.rerank
  ⟨dense, sparse, fused, reranked⟩

/-- Computation of `covered`: how many of the top-5 reranked hits contain at least one
must-have term (`check_term_coverage(...)[0] > 0`). -/
def coveredCount (reranked : List SearchHit) (must_terms : List String) : Nat :=
  (reranked.take 5).countP fun hit => 0 < (check_term_coverage hit.text must_terms).1

/-- The `coverage_ratio < 0.4` expansion test of one executed cycle, together
with its guards `must_terms and reranked_hits`:  with
`m = min 5 len(reranked) > 0`, `covered / m < 0.4` iff
`5 * covered < 2 * m` exactly. -/
def expandCond (st : Stores) (query dense_query sparse_query : String)
    (must_terms : List String) (rrf_k : Nat) (tk : TopKConfig) : Bool :=
  let cyc := runCycle st query dense_query sparse_query tk rrf_k
  !must_terms.isEmpty && !cyc.reranked.isEmpty &&
    decide (5 * coveredCount cyc.reranked must_terms < 2 * min 5 cyc.reranked.length)

/-- The per-cycle update of the debug counts
(`debug.counts["dense_n" | "sparse_n" | "fused_n" | "reranked_n"]`),
overwritten on every iteration. -/
def dbgAfterCycle (dbg : DebugInfoM) (cyc : CycleOut) : DebugInfoM :=
  { dbg with dense_n := cyc.dense.length, sparse_n := cyc.sparse.length,
             fused_n := cyc.fused.length, reranked_n := cyc.reranked.length }

/-- The pool widening `topk.dense = int(topk.dense * 1.2)` (and likewise for
sparse) performed before re-running the searches. -/
def widenTopK (tk : TopKConfig) : TopKConfig :=
  { tk with dense := widen tk.dense, sparse := widen tk.sparse }

/-- The debug record after a weak-coverage iteration: counts overwritten and
the expansion note (with the exact coverage ratio `covered / min(5, n)`)
appended. -/
def dbgExpanded (dbg : DebugInfoM) (cyc : CycleOut) (ci : Nat)
    (must_terms : List String) : DebugInfoM :=
  { dbgAfterCycle dbg cyc with
    notes := (dbgAfterCycle dbg cyc).notes ++
      [expansionNote ci ((coveredCount cyc.reranked must_terms : ℚ) /
        ((min 5 cyc.reranked.length : Nat) : ℚ))] }

/-- The state of `retrieve_and_rerank` when the `while` loop finishes. -/
structure LoopOut where
  final_reranked : List SearchHit
  current_iter : Nat
  topk : TopKConfig
  debug : DebugInfoM
  trace : List TopKConfig
  deriving Repr

/-- The `while current_iter < max_iters` loop of `retrieve_and_rerank`.
`fuel` is the termination measure (`max_iters.toNat` at entry keeps it in
lockstep with the Python loop condition, re-checked as
`(current_iter : Int) < max_iters` each round); `current_iter`, the mutable
`topk`, the debug record and the remaining behaviour follow the source.
`trace` additionally records, in order, the `TopKConfig` passed to the
dense/sparse search calls of each executed iteration. -/
def loopGo (st : Stores) (query dense_query sparse_query : String)
    (must_terms : List String) (rrf_k : Nat) (max_iters : Int) :
    Nat → Nat → TopKConfig → DebugInfoM → LoopOut
  | 0, current_iter, tk, dbg => ⟨[], current_iter, tk, dbg, []⟩
  | fuel + 1, current_iter, tk, dbg =>
    if (current_iter : Int) < max_iters then
      let ci := current_iter + 1
      let cyc := runCycle st query dense_query sparse_query tk rrf_k
      if !must_terms.isEmpty && !cyc.reranked.isEmpty then
        if 5 * coveredCount cyc.reranked must_terms < 2 * min 5 cyc.reranked.length ∧
            (ci : Int) < max_iters then
          let r := loopGo st query dense_query sparse_query must_terms rrf_k max_iters fuel ci
            (widenTopK tk) (dbgExpanded dbg cyc ci must_terms)
          ⟨r.final_reranked, r.current_iter, r.topk, r.debug, tk :: r.trace⟩
        else ⟨cyc.reranked, ci, tk, dbgAfterCycle dbg cyc, [tk]⟩
      else ⟨cyc.reranked, ci, tk, dbgAfterCycle dbg cyc, [tk]⟩
    else ⟨[], current_iter, tk, dbg, []⟩

/-- The observable outcome of one `retrieve_and_rerank` request. -/
structure RetrieveOut where
  chunks : List ContextChunk
  debug : DebugInfoM
  iters : Nat
  final_topk : TopKConfig
  trace : List TopKConfig

/-- Embedding of `HybridRetriever.retrieve_and_rerank`, after config resolution: the
params snapshot (taken before the loop; the dict copies the int values of
the initial `topk`), the must-have-terms note, the adaptive loop, the
`"Used N iterations"` note and the diversity selection.  `query`,
`dense_query`, `sparse_query` and `must_terms` are the raw query and the
three QueryAnalyzer outputs computed from it by `text_utils`; the stores are
the injected collaborators.  Source defaults: `rrf_k = 60`, `max_iters = 2`,
`max_chars_per_chunk = 1600`. -/
def retrieve_and_rerank (st : Stores) (query dense_query sparse_query : String)
    (must_terms : List String) (topk : TopKConfig) (rrf_k : Nat) (max_iters : Int)
    (diversity : DiversityConfig) (max_chars_per_chunk : Nat) : RetrieveOut :=
  let dbg : DebugInfoM :=
    { DebugInfoM.init with
      params := some ⟨topk, rrf_k, max_iters, diversity⟩,
      notes := if must_terms.isEmpty then [] else [mustTermsNote must_terms] }
  let r := loopGo st query dense_query sparse_query must_terms rrf_k max_iters
    max_iters.toNat 0 topk dbg
  let dbg := if 1 < r.current_iter then
    { r.debug with notes := r.debug.notes ++ [usedIterationsNote r.current_iter] } else r.debug
  let final_chunks := apply_diversity r.final_reranked diversity.max_per_doc diversity.min_docs
    max_chars_per_chunk
  ⟨final_chunks, { dbg with final_n := final_chunks.length }, r.current_iter, r.topk, r.trace⟩

/-! Part: Association-map lemmas for the `score_map` accumulator -/

theorem lookupKey_dictSet {α : Type} (κ κ' : Key) (v : α) (m : List (Key × α)) :
    lookupKey κ' (dictSet κ v m) = if κ = κ' then some v else lookupKey κ' m := by
  induction m with
  | nil => by_cases h : κ = κ' <;> simp [dictSet, lookupKey, h]
  | cons e rest ih =>
    obtain ⟨k, w⟩ := e
    by_cases hkκ : k = κ
    · subst hkκ
      by_cases h : k = κ' <;> simp [dictSet, lookupKey, h]
    · have hstep : dictSet κ v ((k, w) :: rest) = (k, w) :: dictSet κ v rest := by
        simp [dictSet, hkκ]
      rw [hstep]
      by_cases h : k = κ'
      · subst h
        have hκk : ¬ κ = k := fun hc => hkκ hc.symm
        simp [lookupKey, hκk]
      · have h1 : lookupKey κ' ((k, w) :: dictSet κ v rest) = lookupKey κ' (dictSet κ v rest) := by
          simp [lookupKey, h]
        rw [h1, ih]
        by_cases h2 : κ = κ' <;> simp [lookupKey, h, h2]

theorem keys_dictSet {α : Type} (κ : Key) (v : α) (m : List (Key × α)) :
    (dictSet κ v m).map Prod.fst =
      if κ ∈ m.map Prod.fst then m.map Prod.fst else m.map Prod.fst ++ [κ] := by
  induction m with
  | nil => simp [dictSet]
  | cons e rest ih =>
    obtain ⟨k, w⟩ := e
    by_cases hkκ : k = κ
    · subst hkκ
      simp [dictSet]
    · have hκk : ¬ κ = k := fun hc => hkκ hc.symm
      simp only [dictSet, if_neg hkκ, List.map_cons]
      rw [ih]
      by_cases hmem : κ ∈ rest.map Prod.fst
      · simp [hmem, hκk]
      · simp [hmem, hκk]

theorem length_dictSet_le {α : Type} (κ : Key) (v : α) (m : List (Key × α)) :
    (dictSet κ v m).length ≤ m.length + 1 := by
  have h := congrArg List.length (keys_dictSet κ v m)
  simp only [List.length_map] at h
  by_cases hmem : κ ∈ m.map Prod.fst <;> simp [hmem] at h <;> omega

theorem lookupKey_isSome_of_mem_keys {α : Type} (κ : Key) (m : List (Key × α))
    (h : κ ∈ m.map Prod.fst) : (lookupKey κ m).isSome := by
  induction m with
  | nil => simp at h
  | cons e rest ih =>
    obtain ⟨k, w⟩ := e
    by_cases hk : k = κ
    · simp [lookupKey, hk]
    · simp only [List.map_cons, List.mem_cons] at h
      rcases h with h | h
      · exact absurd h.symm hk
      · simpa [lookupKey, hk] using ih h

theorem mem_keys_of_lookupKey_eq_some {α : Type} (κ : Key) (v : α) (m : List (Key × α))
    (h : lookupKey κ m = some v) : κ ∈ m.map Prod.fst := by
  induction m with
  | nil => simp [lookupKey] at h
  | cons e rest ih =>
    obtain ⟨k, w⟩ := e
    by_cases hk : k = κ
    · simp [hk]
    · simp only [lookupKey, hk, if_false] at h
      simpa using Or.inr (ih h)

theorem lookupKey_mem {α : Type} (κ : Key) (v : α) (m : List (Key × α))
    (h : lookupKey κ m = some v) : (κ, v) ∈ m := by
  induction m with
  | nil => simp [lookupKey] at h
  | cons e rest ih =>
    obtain ⟨k, w⟩ := e
    by_cases hk : k = κ
    · subst hk
      have hw : w = v := by simpa [lookupKey] using h
      subst hw
      exact List.mem_cons_self _ _
    · simp only [lookupKey, hk, if_false] at h
      exact List.mem_cons_of_mem _ (ih h)

/-- Every `score_map` entry stores a hit whose `(doc_id, chunk_id)` equals the
entry's key. -/
def ConsistentMap (m : ScoreMap) : Prop :=
  ∀ e ∈ m, e.2.2.key = e.1

theorem consistentMap_dictSet (κ : Key) (v : ℚ × SearchHit) (hv : v.2.key = κ) :
    ∀ (m : ScoreMap), ConsistentMap m → ConsistentMap (dictSet κ v m) := by
  intro m
  induction m with
  | nil =>
    intro _ e he
    simp only [dictSet, List.mem_singleton] at he
    subst he
    exact hv
  | cons p rest ih =>
    obtain ⟨k, w⟩ := p
    intro h e he
    by_cases hk : k = κ
    · subst hk
      rw [show dictSet k v ((k, w) :: rest) = (k, v) :: rest by simp [dictSet]] at he
      rcases List.mem_cons.mp he with he | he
      · subst he; exact hv
      · exact h e (List.mem_cons_of_mem _ he)
    · rw [show dictSet κ v ((k, w) :: rest) = (k, w) :: dictSet κ v rest by
        simp [dictSet, hk]] at he
      rcases List.mem_cons.mp he with he | he
      · subst he; exact h _ (List.mem_cons_self _ _)
      · exact ih (fun e' he' => h e' (List.mem_cons_of_mem _ he')) e he

theorem consistentMap_processDense (rrf_k : Nat) (l : List SearchHit) :
    ∀ (rank : Nat) (m : ScoreMap), ConsistentMap m →
      ConsistentMap (processDense rrf_k rank m l) := by
  induction l with
  | nil => intro rank m h; simpa [processDense] using h
  | cons hit rest ih =>
    intro rank m h
    cases hl : lookupKey hit.key m with
    | some v =>
      obtain ⟨cs, ch⟩ := v
      simp only [processDense, hl]
      refine ih _ _ (consistentMap_dictSet _ _ ?_ _ h)
      exact h _ (lookupKey_mem _ _ _ hl)
    | none =>
      simp only [processDense, hl]
      refine ih _ _ (consistentMap_dictSet _ _ ?_ _ h)
      rfl

theorem consistentMap_processSparse (rrf_k : Nat) (l : List SearchHit) :
    ∀ (rank : Nat) (m : ScoreMap), ConsistentMap m →
      ConsistentMap (processSparse rrf_k rank m l) := by
  induction l with
  | nil => intro rank m h; simpa [processSparse] using h
  | cons hit rest ih =>
    intro rank m h
    cases hl : lookupKey hit.key m with
    | some v =>
      obtain ⟨cs, ch⟩ := v
      simp only [processSparse, hl]
      refine ih _ _ (consistentMap_dictSet _ _ ?_ _ h)
      exact h _ (lookupKey_mem _ _ _ hl)
    | none =>
      simp only [processSparse, hl]
      refine ih _ _ (consistentMap_dictSet _ _ ?_ _ h)
      rfl

theorem mem_keys_processDense (rrf_k : Nat) (κ : Key) (l : List SearchHit) :
    ∀ (rank : Nat) (m : ScoreMap),
      (κ ∈ (processDense rrf_k rank m l).map Prod.fst ↔
        κ ∈ m.map Prod.fst ∨ κ ∈ l.map SearchHit.key) := by
  induction l with
  | nil => intro rank m; simp [processDense]
  | cons hit rest ih =>
    intro rank m
    cases hl : lookupKey hit.key m with
    | some v =>
      obtain ⟨cs, ch⟩ := v
      simp only [processDense, hl]
      rw [ih]
      have hmem := mem_keys_of_lookupKey_eq_some _ _ _ hl
      rw [keys_dictSet, if_pos hmem]
      simp only [List.map_cons, List.mem_cons]
      constructor
      · rintro (h | h)
        · exact Or.inl h
        · exact Or.inr (Or.inr h)
      · rintro (h | h | h)
        · exact Or.inl h
        · exact Or.inl (h ▸ hmem)
        · exact Or.inr h
    | none =>
      simp only [processDense, hl]
      rw [ih, keys_dictSet]
      have hmem : hit.key ∉ m.map Prod.fst := by
        intro hc
        have := lookupKey_isSome_of_mem_keys _ _ hc
        simp [hl] at this
      rw [if_neg hmem]
      simp only [List.mem_append, List.mem_singleton, List.map_cons, List.mem_cons]
      tauto

theorem mem_keys_processSparse (rrf_k : Nat) (κ : Key) (l : List SearchHit) :
    ∀ (rank : Nat) (m : ScoreMap),
      (κ ∈ (processSparse rrf_k rank m l).map Prod.fst ↔
        κ ∈ m.map Prod.fst ∨ κ ∈ l.map SearchHit.key) := by
  induction l with
  | nil => intro rank m; simp [processSparse]
  | cons hit rest ih =>
    intro rank m
    cases hl : lookupKey hit.key m with
    | some v =>
      obtain ⟨cs, ch⟩ := v
      simp only [processSparse, hl]
      rw [ih]
      have hmem := mem_keys_of_lookupKey_eq_some _ _ _ hl
      rw [keys_dictSet, if_pos hmem]
      simp only [List.map_cons, List.mem_cons]
      constructor
      · rintro (h | h)
        · exact Or.inl h
        · exact Or.inr (Or.inr h)
      · rintro (h | h | h)
        · exact Or.inl h
        · exact Or.inl (h ▸ hmem)
        · exact Or.inr h
    | none =>
      simp only [processSparse, hl]
      rw [ih, keys_dictSet]
      have hmem : hit.key ∉ m.map Prod.fst := by
        intro hc
        have := lookupKey_isSome_of_mem_keys _ _ hc
        simp [hl] at this
      rw [if_neg hmem]
      simp only [List.mem_append, List.mem_singleton, List.map_cons, List.mem_cons]
      tauto

theorem length_processDense_le (rrf_k : Nat) (l : List SearchHit) :
    ∀ (rank : Nat) (m : ScoreMap),
      (processDense rrf_k rank m l).length ≤ m.length + l.length := by
  induction l with
  | nil => intro rank m; simp [processDense]
  | cons hit rest ih =>
    intro rank m
    cases hl : lookupKey hit.key m with
    | some v =>
      obtain ⟨cs, ch⟩ := v
      simp only [processDense, hl]
      refine le_trans (ih (rank + 1) _)
        (le_trans (Nat.add_le_add_right (length_dictSet_le _ _ _) _) ?_)
      simp only [List.length_cons]
      omega
    | none =>
      simp only [processDense, hl]
      refine le_trans (ih (rank + 1) _)
        (le_trans (Nat.add_le_add_right (length_dictSet_le _ _ _) _) ?_)
      simp only [List.length_cons]
      omega

theorem length_processSparse_le (rrf_k : Nat) (l : List SearchHit) :
    ∀ (rank : Nat) (m : ScoreMap),
      (processSparse rrf_k rank m l).length ≤ m.length + l.length := by
  induction l with
  | nil => intro rank m; simp [processSparse]
  | cons hit rest ih =>
    intro rank m
    cases hl : lookupKey hit.key m with
    | some v =>
      obtain ⟨cs, ch⟩ := v
      simp only [processSparse, hl]
      refine le_trans (ih (rank + 1) _)
        (le_trans (Nat.add_le_add_right (length_dictSet_le _ _ _) _) ?_)
      simp only [List.length_cons]
      omega
    | none =>
      simp only [processSparse, hl]
      refine le_trans (ih (rank + 1) _)
        (le_trans (Nat.add_le_add_right (length_dictSet_le _ _ _) _) ?_)
      simp only [List.length_cons]
      omega

/-! Part: Lemmas about finalize / sort / dedupe / take -/

theorem finalizeHits_length (m : ScoreMap) : (finalizeHits m).length = m.length := by
  simp [finalizeHits]

theorem finalizeHits_keys (m : ScoreMap) (h : ConsistentMap m) :
    (finalizeHits m).map SearchHit.key = m.map Prod.fst := by
  induction m with
  | nil => simp [finalizeHits]
  | cons e rest ih =>
    simp only [finalizeHits, List.map_cons, List.map_map]
    congr 1
    · exact h e (List.mem_cons_self _ _)
    · have hrest := ih fun e' he' => h e' (List.mem_cons_of_mem _ he')
      simpa [finalizeHits, List.map_map] using hrest

theorem insertByScore_perm (x : SearchHit) (l : List SearchHit) :
    List.Perm (insertByScore x l) (x :: l) := by
  induction l with
  | nil => exact List.Perm.refl _
  | cons y ys ih =>
    by_cases h : y.score ≤ x.score
    · rw [show insertByScore x (y :: ys) = x :: y :: ys by simp [insertByScore, h]]
    · rw [show insertByScore x (y :: ys) = y :: insertByScore x ys by simp [insertByScore, h]]
      exact List.Perm.trans (List.Perm.cons y ih) (List.Perm.swap x y ys)

theorem sortByScoreDesc_perm (l : List SearchHit) : List.Perm (sortByScoreDesc l) l := by
  induction l with
  | nil => exact List.Perm.refl _
  | cons x xs ih =>
    exact List.Perm.trans (insertByScore_perm x (sortByScoreDesc xs)) (List.Perm.cons x ih)

theorem dedupeByKey_sublist (seen : List Key) (l : List SearchHit) :
    (dedupeByKey seen l).Sublist l := by
  induction l generalizing seen with
  | nil => simp [dedupeByKey]
  | cons hd rest ih =>
    by_cases hs : hd.key ∈ seen
    · rw [show dedupeByKey seen (hd :: rest) = dedupeByKey seen rest by simp [dedupeByKey, hs]]
      exact List.Sublist.cons _ (ih seen)
    · rw [show dedupeByKey seen (hd :: rest) = hd :: dedupeByKey (hd.key :: seen) rest by
        simp [dedupeByKey, hs]]
      exact List.Sublist.cons₂ _ (ih (hd.key :: seen))

theorem mem_keys_dedupeByKey (κ : Key) (seen : List Key) (l : List SearchHit)
    (h1 : κ ∈ l.map SearchHit.key) (h2 : κ ∉ seen) :
    κ ∈ (dedupeByKey seen l).map SearchHit.key := by
  induction l generalizing seen with
  | nil => simp at h1
  | cons hd rest ih =>
    simp only [List.map_cons, List.mem_cons] at h1
    simp only [dedupeByKey]
    by_cases hs : hd.key ∈ seen
    · rw [if_pos hs]
      rcases h1 with h1 | h1
      · exact absurd (h1 ▸ hs) h2
      · exact ih seen h1 h2
    · rw [if_neg hs]
      rcases h1 with h1 | h1
      · simp [h1]
      · by_cases hκ : κ = hd.key
        · simp [hκ]
        · simp only [List.map_cons, List.mem_cons]
          exact Or.inr (ih (hd.key :: seen) h1 (by simp [hκ, h2]))

theorem nodup_keys_dedupeByKey (seen : List Key) (l : List SearchHit) :
    ((dedupeByKey seen l).map SearchHit.key).Nodup ∧
      ∀ κ ∈ (dedupeByKey seen l).map SearchHit.key, κ ∉ seen := by
  induction l generalizing seen with
  | nil => simp [dedupeByKey]
  | cons hd rest ih =>
    simp only [dedupeByKey]
    by_cases hs : hd.key ∈ seen
    · rw [if_pos hs]
      exact ih seen
    · rw [if_neg hs]
      obtain ⟨ihn, ihs⟩ := ih (hd.key :: seen)
      constructor
      · simp only [List.map_cons, List.nodup_cons]
        exact ⟨fun hc => (ihs _ hc) (List.mem_cons_self _ _), ihn⟩
      · intro κ hκ
        simp only [List.map_cons, List.mem_cons] at hκ
        rcases hκ with hκ | hκ
        · exact hκ ▸ hs
        · exact fun hc => (ihs _ hκ) (List.mem_cons_of_mem _ hc)

/-- Unfolding of `rrf_fuse` with `dedupe=True` into its pipeline stages. -/
theorem rrf_fuse_eq (dense_hits sparse_hits : List SearchHit) (rrf_k top_k_fused : Nat) :
    rrf_fuse dense_hits sparse_hits rrf_k top_k_fused true =
      (dedupeByKey [] (sortByScoreDesc (finalizeHits
        (processSparse rrf_k 1 (processDense rrf_k 1 [] dense_hits) sparse_hits)))).take
        top_k_fused := rfl

/-- The `score_map` of `rrf_fuse` is key-consistent and its size is bounded
by the total number of input hits. -/
theorem scoreMap_facts (dense_hits sparse_hits : List SearchHit) (rrf_k : Nat) :
    ConsistentMap (processSparse rrf_k 1 (processDense rrf_k 1 [] dense_hits) sparse_hits) ∧
      (processSparse rrf_k 1 (processDense rrf_k 1 [] dense_hits) sparse_hits).length ≤
        dense_hits.length + sparse_hits.length := by
  constructor
  · refine consistentMap_processSparse rrf_k sparse_hits 1 _ ?_
    refine consistentMap_processDense rrf_k dense_hits 1 [] ?_
    intro e he
    simp at he
  · have h5 := length_processSparse_le rrf_k sparse_hits 1 (processDense rrf_k 1 [] dense_hits)
    have h6 := length_processDense_le rrf_k dense_hits 1 []
    simp only [List.length_nil] at h6
    omega

/-- C1: for disjoint-keyed dense and sparse input lists, and a fused budget of
at least `|dense| + |sparse|`, the fused output of `rrf_fuse` contains an
entry for every input hit's `(doc_id, chunk_id)` key — no input hit's key is
dropped. -/
theorem C1_fused_output_contains_every_input_key
    (dense_hits sparse_hits : List SearchHit) (rrf_k top_k_fused : Nat)
    (hdistinct : ((dense_hits ++ sparse_hits).map SearchHit.key).Nodup)
    (htop : dense_hits.length + sparse_hits.length ≤ top_k_fused) :
    ∀ hit ∈ dense_hits ++ sparse_hits,
      ∃ fusedHit ∈ rrf_fuse dense_hits sparse_hits rrf_k top_k_fused true,
        fusedHit.key = hit.key := by
  intro hit hmem
  obtain ⟨hcons, hlenm⟩ := scoreMap_facts dense_hits sparse_hits rrf_k
  have hkey : hit.key ∈
      (processSparse rrf_k 1 (processDense rrf_k 1 [] dense_hits) sparse_hits).map Prod.fst := by
    rw [mem_keys_processSparse, mem_keys_processDense]
    rcases List.mem_append.mp hmem with h | h
    · exact Or.inl (Or.inr (List.mem_map_of_mem _ h))
    · exact Or.inr (List.mem_map_of_mem _ h)
  have hkeyF : hit.key ∈ (finalizeHits
      (processSparse rrf_k 1 (processDense rrf_k 1 [] dense_hits) sparse_hits)).map SearchHit.key := by
    rw [finalizeHits_keys _ hcons]
    exact hkey
  have hkeyS : hit.key ∈ (sortByScoreDesc (finalizeHits
      (processSparse rrf_k 1 (processDense rrf_k 1 [] dense_hits) sparse_hits))).map SearchHit.key :=
    ((sortByScoreDesc_perm _).map SearchHit.key).mem_iff.mpr hkeyF
  have hkeyD := mem_keys_dedupeByKey hit.key [] _ hkeyS (by simp)
  have hlen : (dedupeByKey [] (sortByScoreDesc (finalizeHits
      (processSparse rrf_k 1 (processDense rrf_k 1 [] dense_hits) sparse_hits)))).length ≤
      top_k_fused := by
    have h1 := (dedupeByKey_sublist [] (sortByScoreDesc (finalizeHits
      (processSparse rrf_k 1 (processDense rrf_k 1 [] dense_hits) sparse_hits)))).length_le
    have h2 := (sortByScoreDesc_perm (finalizeHits
      (processSparse rrf_k 1 (processDense rrf_k 1 [] dense_hits) sparse_hits))).length_eq
    have h3 := finalizeHits_length
      (processSparse rrf_k 1 (processDense rrf_k 1 [] dense_hits) sparse_hits)
    omega
  rw [rrf_fuse_eq, List.take_of_length_le hlen]
  exact List.mem_map.mp hkeyD

/-- Sample hits for the concrete witnesses (cf. the spec's
sparse-only-survival scenario). -/
def hitDenseA : SearchHit :=
  ⟨1, "doc_1", 0, "alpha text", 9/10, "dense", Payload.empty⟩

def hitSparseB : SearchHit :=
  ⟨2, "doc_3", 0, "beta text", 5, "sparse", Payload.empty⟩

/-- C1 witness: the sparse-only hit survives fusion with disjoint keys and a
large enough fused budget. -/
theorem C1_witness :
    ∃ fusedHit ∈ rrf_fuse [hitDenseA] [hitSparseB] 60 10 true,
      fusedHit.key = hitSparseB.key :=
  C1_fused_output_contains_every_input_key [hitDenseA] [hitSparseB] 60 10
    (by decide) (by decide) hitSparseB (by decide)

/-- C3: for every pair of input hit lists (duplicates allowed), the fused
output of `rrf_fuse` has at most one entry per `(doc_id, chunk_id)` key. -/
theorem C3_fused_output_unique_by_key
    (dense_hits sparse_hits : List SearchHit) (rrf_k top_k_fused : Nat) :
    ((rrf_fuse dense_hits sparse_hits rrf_k top_k_fused true).map SearchHit.key).Nodup := by
  rw [rrf_fuse_eq, List.map_take]
  exact List.Nodup.sublist (List.take_sublist _ _)
    (nodup_keys_dedupeByKey [] (sortByScoreDesc (finalizeHits
      (processSparse rrf_k 1 (processDense rrf_k 1 [] dense_hits) sparse_hits)))).1

/-! Part: Locating a single occurrence of a key in the score map (for C2) -/

theorem lookup_processDense_absent (rrf_k : Nat) (κ : Key) :
    ∀ (l : List SearchHit), κ ∉ l.map SearchHit.key →
      ∀ (rank : Nat) (m : ScoreMap),
        lookupKey κ (processDense rrf_k rank m l) = lookupKey κ m := by
  intro l
  induction l with
  | nil => intro _ rank m; simp [processDense]
  | cons hit rest ih =>
    intro hni rank m
    have hne : hit.key ≠ κ := fun hc => hni (by simp [hc])
    have hni' : κ ∉ rest.map SearchHit.key := fun hc => hni (by simp [hc])
    cases hl : lookupKey hit.key m with
    | some v =>
      obtain ⟨cs, ch⟩ := v
      simp only [processDense, hl]
      rw [ih hni' _ _, lookupKey_dictSet, if_neg hne]
    | none =>
      simp only [processDense, hl]
      rw [ih hni' _ _, lookupKey_dictSet, if_neg hne]

theorem lookup_processSparse_absent (rrf_k : Nat) (κ : Key) :
    ∀ (l : List SearchHit), κ ∉ l.map SearchHit.key →
      ∀ (rank : Nat) (m : ScoreMap),
        lookupKey κ (processSparse rrf_k rank m l) = lookupKey κ m := by
  intro l
  induction l with
  | nil => intro _ rank m; simp [processSparse]
  | cons hit rest ih =>
    intro hni rank m
    have hne : hit.key ≠ κ := fun hc => hni (by simp [hc])
    have hni' : κ ∉ rest.map SearchHit.key := fun hc => hni (by simp [hc])
    cases hl : lookupKey hit.key m with
    | some v =>
      obtain ⟨cs, ch⟩ := v
      simp only [processSparse, hl]
      rw [ih hni' _ _, lookupKey_dictSet, if_neg hne]
    | none =>
      simp only [processSparse, hl]
      rw [ih hni' _ _, lookupKey_dictSet, if_neg hne]

/-- Processing the dense list `l₁ ++ g :: l₂`, where `g` is the only hit with
key `κ` and `κ` is not yet in the map, stores exactly the single dense
contribution `1/(rrf_k + rank_of_g)`. -/
theorem lookup_processDense_insert (rrf_k : Nat) (κ : Key) (g : SearchHit) (hg : g.key = κ)
    (l₂ : List SearchHit) (h2 : κ ∉ l₂.map SearchHit.key) :
    ∀ (l₁ : List SearchHit), κ ∉ l₁.map SearchHit.key →
      ∀ (rank : Nat) (m : ScoreMap), lookupKey κ m = none →
        ∃ sh, lookupKey κ (processDense rrf_k rank m (l₁ ++ g :: l₂)) =
          some (rrf_score_single (rank + l₁.length) rrf_k, sh) := by
  intro l₁
  induction l₁ with
  | nil =>
    intro _ rank m hm
    have hlg : lookupKey g.key m = none := by rw [hg]; exact hm
    simp only [List.nil_append, processDense, hlg]
    rw [lookup_processDense_absent rrf_k κ l₂ h2 _ _, lookupKey_dictSet, if_pos hg]
    exact ⟨_, rfl⟩
  | cons hd l₁' ih =>
    intro h1 rank m hm
    have hne : hd.key ≠ κ := fun hc => h1 (by simp [hc])
    have h1' : κ ∉ l₁'.map SearchHit.key := fun hc => h1 (by simp [hc])
    cases hl : lookupKey hd.key m with
    | some v =>
      obtain ⟨cs, ch⟩ := v
      simp only [List.cons_append, List.append_eq, processDense, hl]
      have hm' : lookupKey κ (dictSet hd.key (cs + rrf_score_single rank rrf_k, ch) m) = none := by
        rw [lookupKey_dictSet, if_neg hne]; exact hm
      obtain ⟨sh, hsh⟩ := ih h1' (rank + 1) _ hm'
      refine ⟨sh, ?_⟩
      rw [hsh]
      have harg : (rank + 1) + l₁'.length = rank + (hd :: l₁').length := by
        simp [List.length_cons]; omega
      rw [harg]
    | none =>
      simp only [List.cons_append, List.append_eq, processDense, hl]
      have hm' : lookupKey κ (dictSet hd.key
          (rrf_score_single rank rrf_k,
            { id := hd.id, doc_id := hd.doc_id, chunk_id := hd.chunk_id, text := hd.text, score := 0, source := "fused", payload := { hd.payload with dense_rank := some rank, dense_score := some hd.score } }) m) = none := by
        rw [lookupKey_dictSet, if_neg hne]; exact hm
      obtain ⟨sh, hsh⟩ := ih h1' (rank + 1) _ hm'
      refine ⟨sh, ?_⟩
      rw [hsh]
      have harg : (rank + 1) + l₁'.length = rank + (hd :: l₁').length := by
        simp [List.length_cons]; omega
      rw [harg]

/-- Processing the sparse list `l₁ ++ g :: l₂`, where `g` is the only hit
with key `κ` and the map already holds `(s, _)` under `κ`, adds exactly the
single sparse contribution to `s`. -/
theorem lookup_processSparse_add (rrf_k : Nat) (κ : Key) (g : SearchHit) (hg : g.key = κ)
    (l₂ : List SearchHit) (h2 : κ ∉ l₂.map SearchHit.key) :
    ∀ (l₁ : List SearchHit), κ ∉ l₁.map SearchHit.key →
      ∀ (rank : Nat) (m : ScoreMap) (s : ℚ) (sh₀ : SearchHit),
        lookupKey κ m = some (s, sh₀) →
        ∃ sh, lookupKey κ (processSparse rrf_k rank m (l₁ ++ g :: l₂)) =
          some (s + rrf_score_single (rank + l₁.length) rrf_k, sh) := by
  intro l₁
  induction l₁ with
  | nil =>
    intro _ rank m s sh₀ hm
    have hlg : lookupKey g.key m = some (s, sh₀) := by rw [hg]; exact hm
    simp only [List.nil_append, processSparse, hlg]
    rw [lookup_processSparse_absent rrf_k κ l₂ h2 _ _, lookupKey_dictSet, if_pos hg]
    exact ⟨_, rfl⟩
  | cons hd l₁' ih =>
    intro h1 rank m s sh₀ hm
    have hne : hd.key ≠ κ := fun hc => h1 (by simp [hc])
    have h1' : κ ∉ l₁'.map SearchHit.key := fun hc => h1 (by simp [hc])
    cases hl : lookupKey hd.key m with
    | some v =>
      obtain ⟨cs, ch⟩ := v
      simp only [List.cons_append, List.append_eq, processSparse, hl]
      have hm' : lookupKey κ (dictSet hd.key (cs + rrf_score_single rank rrf_k,
          { ch with payload := { ch.payload with sparse_rank := some rank, sparse_score := some hd.score } }) m) = some (s, sh₀) := by
        rw [lookupKey_dictSet, if_neg hne]; exact hm
      obtain ⟨sh, hsh⟩ := ih h1' (rank + 1) _ s sh₀ hm'
      refine ⟨sh, ?_⟩
      rw [hsh]
      have harg : (rank + 1) + l₁'.length = rank + (hd :: l₁').length := by
        simp [List.length_cons]; omega
      rw [harg]
    | none =>
      simp only [List.cons_append, List.append_eq, processSparse, hl]
      have hm' : lookupKey κ (dictSet hd.key
          (rrf_score_single rank rrf_k,
            { id := hd.id, doc_id := hd.doc_id, chunk_id := hd.chunk_id, text := hd.text, score := 0, source := "fused", payload := { hd.payload with sparse_rank := some rank, sparse_score := some hd.score } }) m) = some (s, sh₀) := by
        rw [lookupKey_dictSet, if_neg hne]; exact hm
      obtain ⟨sh, hsh⟩ := ih h1' (rank + 1) _ s sh₀ hm'
      refine ⟨sh, ?_⟩
      rw [hsh]
      have harg : (rank + 1) + l₁'.length = rank + (hd :: l₁').length := by
        simp [List.length_cons]; omega
      rw [harg]

/-- Processing the sparse list `l₁ ++ g :: l₂`, where `g` is the only hit
with key `κ` and `κ` is not yet in the map, stores exactly the single sparse
contribution. -/
theorem lookup_processSparse_insert (rrf_k : Nat) (κ : Key) (g : SearchHit) (hg : g.key = κ)
    (l₂ : List SearchHit) (h2 : κ ∉ l₂.map SearchHit.key) :
    ∀ (l₁ : List SearchHit), κ ∉ l₁.map SearchHit.key →
      ∀ (rank : Nat) (m : ScoreMap), lookupKey κ m = none →
        ∃ sh, lookupKey κ (processSparse rrf_k rank m (l₁ ++ g :: l₂)) =
          some (rrf_score_single (rank + l₁.length) rrf_k, sh) := by
  intro l₁
  induction l₁ with
  | nil =>
    intro _ rank m hm
    have hlg : lookupKey g.key m = none := by rw [hg]; exact hm
    simp only [List.nil_append, processSparse, hlg]
    rw [lookup_processSparse_absent rrf_k κ l₂ h2 _ _, lookupKey_dictSet, if_pos hg]
    exact ⟨_, rfl⟩
  | cons hd l₁' ih =>
    intro h1 rank m hm
    have hne : hd.key ≠ κ := fun hc => h1 (by simp [hc])
    have h1' : κ ∉ l₁'.map SearchHit.key := fun hc => h1 (by simp [hc])
    cases hl : lookupKey hd.key m with
    | some v =>
      obtain ⟨cs, ch⟩ := v
      simp only [List.cons_append, List.append_eq, processSparse, hl]
      have hm' : lookupKey κ (dictSet hd.key (cs + rrf_score_single rank rrf_k,
          { ch with payload := { ch.payload with sparse_rank := some rank, sparse_score := some hd.score } }) m) = none := by
        rw [lookupKey_dictSet, if_neg hne]; exact hm
      obtain ⟨sh, hsh⟩ := ih h1' (rank + 1) _ hm'
      refine ⟨sh, ?_⟩
      rw [hsh]
      have harg : (rank + 1) + l₁'.length = rank + (hd :: l₁').length := by
        simp [List.length_cons]; omega
      rw [harg]
    | none =>
      simp only [List.cons_append, List.append_eq, processSparse, hl]
      have hm' : lookupKey κ (dictSet hd.key
          (rrf_score_single rank rrf_k,
            { id := hd.id, doc_id := hd.doc_id, chunk_id := hd.chunk_id, text := hd.text, score := 0, source := "fused", payload := { hd.payload with sparse_rank := some rank, sparse_score := some hd.score } }) m) = none := by
        rw [lookupKey_dictSet, if_neg hne]; exact hm
      obtain ⟨sh, hsh⟩ := ih h1' (rank + 1) _ hm'
      refine ⟨sh, ?_⟩
      rw [hsh]
      have harg : (rank + 1) + l₁'.length = rank + (hd :: l₁').length := by
        simp [List.length_cons]; omega
      rw [harg]

/-- For `k > 0`, two reciprocal-rank contributions beat the single
contribution at the better of the two ranks. -/
theorem rrf_single_lt_add (k r1 r2 : Nat) (hk : 0 < k) :
    rrf_score_single (min r1 r2) k < rrf_score_single r1 k + rrf_score_single r2 k := by
  have hkq : (0 : ℚ) < (k : ℚ) := by exact_mod_cast hk
  have h1 : (0 : ℚ) < (k : ℚ) + (r1 : ℚ) :=
    add_pos_of_pos_of_nonneg hkq (Nat.cast_nonneg r1)
  have h2 : (0 : ℚ) < (k : ℚ) + (r2 : ℚ) :=
    add_pos_of_pos_of_nonneg hkq (Nat.cast_nonneg r2)
  have hp1 : (0 : ℚ) < rrf_score_single r1 k := by
    rw [rrf_score_single]; exact one_div_pos.mpr h1
  have hp2 : (0 : ℚ) < rrf_score_single r2 k := by
    rw [rrf_score_single]; exact one_div_pos.mpr h2
  rcases le_total r1 r2 with h | h
  · rw [min_eq_left h]
    linarith
  · rw [min_eq_right h]
    linarith

/-- C2: with `rrf_k > 0`, a candidate key `κ` occurring exactly once in the
dense list at 1-based rank `r1` (dense list `d₁ ++ hd :: d₂`, `r1 = |d₁|+1`)
and exactly once in the sparse list at rank `r2` receives the accumulated
fused score `1/(k+r1) + 1/(k+r2)`, which is strictly greater than the fused
score `1/(k+min(r1,r2))` of any key `κ'` occurring exactly once, at rank
`min(r1,r2)`, in only one of the two lists. -/
theorem C2_agreement_boost
    (rrf_k : Nat) (hk : 0 < rrf_k)
    (d₁ d₂ s₁ s₂ : List SearchHit) (hd hs : SearchHit) (κ : Key)
    (hgd : hd.key = κ) (hgs : hs.key = κ)
    (hd1 : κ ∉ d₁.map SearchHit.key) (hd2 : κ ∉ d₂.map SearchHit.key)
    (hs1 : κ ∉ s₁.map SearchHit.key) (hs2 : κ ∉ s₂.map SearchHit.key)
    (r1 r2 : Nat) (hr1 : r1 = d₁.length + 1) (hr2 : r2 = s₁.length + 1)
    (κ' : Key)
    (hsingle :
      (∃ e₁ g e₂, d₁ ++ hd :: d₂ = e₁ ++ g :: e₂ ∧ SearchHit.key g = κ' ∧
        κ' ∉ e₁.map SearchHit.key ∧ κ' ∉ e₂.map SearchHit.key ∧
        e₁.length + 1 = min r1 r2 ∧ κ' ∉ (s₁ ++ hs :: s₂).map SearchHit.key) ∨
      (∃ e₁ g e₂, s₁ ++ hs :: s₂ = e₁ ++ g :: e₂ ∧ SearchHit.key g = κ' ∧
        κ' ∉ e₁.map SearchHit.key ∧ κ' ∉ e₂.map SearchHit.key ∧
        e₁.length + 1 = min r1 r2 ∧ κ' ∉ (d₁ ++ hd :: d₂).map SearchHit.key)) :
    ∃ sBoth sOne : ℚ,
      fusedScoreOf (d₁ ++ hd :: d₂) (s₁ ++ hs :: s₂) rrf_k κ = some sBoth ∧
      sBoth = rrf_score_single r1 rrf_k + rrf_score_single r2 rrf_k ∧
      fusedScoreOf (d₁ ++ hd :: d₂) (s₁ ++ hs :: s₂) rrf_k κ' = some sOne ∧
      sOne = rrf_score_single (min r1 r2) rrf_k ∧
      sOne < sBoth := by
  obtain ⟨shD, hshD⟩ := lookup_processDense_insert rrf_k κ hd hgd d₂ hd2 d₁ hd1 1 [] rfl
  obtain ⟨shB, hshB⟩ := lookup_processSparse_add rrf_k κ hs hgs s₂ hs2 s₁ hs1 1 _ _ shD hshD
  have hBoth : fusedScoreOf (d₁ ++ hd :: d₂) (s₁ ++ hs :: s₂) rrf_k κ =
      some (rrf_score_single r1 rrf_k + rrf_score_single r2 rrf_k) := by
    rw [fusedScoreOf, hshB]
    have e1 : 1 + d₁.length = r1 := by omega
    have e2 : 1 + s₁.length = r2 := by omega
    rw [e1, e2]
    rfl
  rcases hsingle with ⟨e₁, g, e₂, heq, hgk, he1, he2, hlen, hnotins⟩ |
      ⟨e₁, g, e₂, heq, hgk, he1, he2, hlen, hnotind⟩
  · obtain ⟨shO, hshO⟩ := lookup_processDense_insert rrf_k κ' g hgk e₂ he2 e₁ he1 1 [] rfl
    have e3 : 1 + e₁.length = min r1 r2 := by omega
    have hOne : fusedScoreOf (d₁ ++ hd :: d₂) (s₁ ++ hs :: s₂) rrf_k κ' =
        some (rrf_score_single (min r1 r2) rrf_k) := by
      rw [fusedScoreOf, lookup_processSparse_absent rrf_k κ' _ hnotins, heq, hshO, e3]
      rfl
    exact ⟨_, _, hBoth, rfl, hOne, rfl, rrf_single_lt_add rrf_k r1 r2 hk⟩
  · have hdnone : lookupKey κ' (processDense rrf_k 1 [] (d₁ ++ hd :: d₂)) = none := by
      rw [lookup_processDense_absent rrf_k κ' _ hnotind]
      rfl
    obtain ⟨shO, hshO⟩ := lookup_processSparse_insert rrf_k κ' g hgk e₂ he2 e₁ he1 1
      (processDense rrf_k 1 [] (d₁ ++ hd :: d₂)) hdnone
    have e3 : 1 + e₁.length = min r1 r2 := by omega
    have hOne : fusedScoreOf (d₁ ++ hd :: d₂) (s₁ ++ hs :: s₂) rrf_k κ' =
        some (rrf_score_single (min r1 r2) rrf_k) := by
      rw [fusedScoreOf, heq, hshO, e3]
      rfl
    exact ⟨_, _, hBoth, rfl, hOne, rfl, rrf_single_lt_add rrf_k r1 r2 hk⟩

/-- Concrete hits for the C2 witness: key `("K", 0)` in both lists
(dense rank 1, sparse rank 2), key `("L", 0)` only in the sparse list at
rank `1 = min(1, 2)`. -/
def hitBothD : SearchHit := ⟨10, "K", 0, "k dense", 9/10, "dense", Payload.empty⟩

def hitBothS : SearchHit := ⟨11, "K", 0, "k sparse", 4, "sparse", Payload.empty⟩

def hitOnlyS : SearchHit := ⟨12, "L", 0, "l sparse", 5, "sparse", Payload.empty⟩

/-- C2 witness at `rrf_k = 60`, `r1 = 1`, `r2 = 2`. -/
theorem C2_witness :
    ∃ sBoth sOne : ℚ,
      fusedScoreOf ([] ++ hitBothD :: []) ([hitOnlyS] ++ hitBothS :: []) 60 ("K", 0) = some sBoth ∧
      sBoth = rrf_score_single 1 60 + rrf_score_single 2 60 ∧
      fusedScoreOf ([] ++ hitBothD :: []) ([hitOnlyS] ++ hitBothS :: []) 60 ("L", 0) = some sOne ∧
      sOne = rrf_score_single (min 1 2) 60 ∧
      sOne < sBoth :=
  C2_agreement_boost 60 (by decide) [] [] [hitOnlyS] [] hitBothD hitBothS ("K", 0)
    (by decide) (by decide) (by decide) (by decide) (by decide) (by decide)
    1 2 (by decide) (by decide) ("L", 0)
    (Or.inr ⟨[], hitOnlyS, [hitBothS], by decide, by decide, by decide, by decide,
      by decide, by decide⟩)

/-! Part: Truncation (C6) -/

theorem rfindSpaceAux_spec (l : List Char) : ∀ (i : Nat) (acc : Option Nat) (j : Nat),
    rfindSpaceAux l i acc = some j →
    acc = some j ∨ (i ≤ j ∧ j < i + l.length ∧ l.get? (j - i) = some ' ') := by
  induction l with
  | nil =>
    intro i acc j h
    exact Or.inl (by simpa [rfindSpaceAux] using h)
  | cons c rest ih =>
    intro i acc j h
    rw [show rfindSpaceAux (c :: rest) i acc
        = rfindSpaceAux rest (i + 1) (if c = ' ' then some i else acc) from rfl] at h
    rcases ih (i + 1) _ j h with hacc | ⟨h1, h2, h3⟩
    · by_cases hc : c = ' '
      · rw [if_pos hc] at hacc
        have hj : j = i := by
          have := Option.some.inj hacc
          omega
        subst hj
        refine Or.inr ⟨le_refl _, by simp only [List.length_cons]; omega, ?_⟩
        simp [hc]
      · rw [if_neg hc] at hacc
        exact Or.inl hacc
    · refine Or.inr ⟨by omega, by simp only [List.length_cons]; omega, ?_⟩
      have hsub : j - i = (j - (i + 1)) + 1 := by omega
      rw [hsub]
      simpa using h3

theorem rfindSpace_spec (l : List Char) (j : Nat) (h : rfindSpace l = some j) :
    j < l.length ∧ l.get? j = some ' ' := by
  rcases rfindSpaceAux_spec l 0 none j h with hacc | ⟨_, h2, h3⟩
  · simp at hacc
  · exact ⟨by omega, by simpa using h3⟩

/-- Branch equation of `truncateChars`: a space past 80% of the limit. -/
theorem truncateChars_eq_space (text : List Char) (max_chars j : Nat)
    (hlen : ¬ text.length ≤ max_chars) (hrf : rfindSpace (text.take max_chars) = some j)
    (hj : 5 * j > 4 * max_chars) :
    truncateChars text max_chars = (text.take max_chars).take j ++ "...".data := by
  simp only [truncateChars, if_neg hlen, hrf, if_pos hj]

/-- Branch equation of `truncateChars`: the last space is too early. -/
theorem truncateChars_eq_space_far (text : List Char) (max_chars j : Nat)
    (hlen : ¬ text.length ≤ max_chars) (hrf : rfindSpace (text.take max_chars) = some j)
    (hj : ¬ 5 * j > 4 * max_chars) :
    truncateChars text max_chars = text.take max_chars ++ "...".data := by
  simp only [truncateChars, if_neg hlen, hrf, if_neg hj]

/-- Branch equation of `truncateChars`: no space in the truncated prefix. -/
theorem truncateChars_eq_nospace (text : List Char) (max_chars : Nat)
    (hlen : ¬ text.length ≤ max_chars) (hrf : rfindSpace (text.take max_chars) = none) :
    truncateChars text max_chars = text.take max_chars ++ "...".data := by
  simp only [truncateChars, if_neg hlen, hrf]

/-- The property asserted by the truncation-safety claim: whenever
`truncate_text` changed the text at all, the character of the original text
at the cut position (the retained prefix's length, i.e. the output minus the
three ellipsis characters) is a space — the cut sits at a whitespace
boundary and never splits a word. -/
def truncation_cut_at_whitespace (text : List Char) (max_chars : Nat) : Prop :=
  truncateChars text max_chars ≠ text →
  text.get? ((truncateChars text max_chars).length - 3) = some ' '

instance (text : List Char) (max_chars : Nat) :
    Decidable (truncation_cut_at_whitespace text max_chars) := by
  unfold truncation_cut_at_whitespace
  infer_instance

/-- C6 counterexample: for the all-letters text `"abcdef"` and
`max_chars = 4`, `truncate_text` produces `"abcd..."`: the length bound
holds, but the cut falls inside the word (`text[4] = 'e'`, not a space), so
the claim's "never splits inside a word" part is false on the code. -/
theorem C6_counterexample :
    truncateChars ("abcdef".data) 4 = ("abcd...".data) ∧
    ¬ truncation_cut_at_whitespace ("abcdef".data) 4 := by
  decide

/-- C6 amended: the truncated text never exceeds `max_chars` plus the
3-character ellipsis, and the cut is at a whitespace boundary whenever the
truncated prefix contains a space past 80% of the limit (the code's
`last_space > max_chars * 0.8` test); otherwise the code hard-cuts at
`max_chars`, possibly splitting a word. -/
theorem C6_truncation_amended (text : List Char) (max_chars : Nat) :
    (truncateChars text max_chars).length ≤ max_chars + 3 ∧
    (∀ j, max_chars < text.length → rfindSpace (text.take max_chars) = some j →
      5 * j > 4 * max_chars →
      truncateChars text max_chars = text.take j ++ "...".data ∧
        text.get? j = some ' ') := by
  have hell : ("...".data).length = 3 := by decide
  constructor
  · by_cases hlen : text.length ≤ max_chars
    · rw [truncateChars, if_pos hlen]
      omega
    · cases hrf : rfindSpace (text.take max_chars) with
      | some j =>
        obtain ⟨hjlt, _⟩ := rfindSpace_spec _ _ hrf
        rw [List.length_take] at hjlt
        by_cases hj : 5 * j > 4 * max_chars
        · rw [truncateChars_eq_space text max_chars j hlen hrf hj]
          rw [List.length_append, List.length_take, List.length_take, hell]
          omega
        · rw [truncateChars_eq_space_far text max_chars j hlen hrf hj]
          rw [List.length_append, List.length_take, hell]
          omega
      | none =>
        rw [truncateChars_eq_nospace text max_chars hlen hrf]
        rw [List.length_append, List.length_take, hell]
        omega
  · intro j hlen hrf hj
    obtain ⟨hjlt, hsp⟩ := rfindSpace_spec _ _ hrf
    rw [List.length_take] at hjlt
    have hjmax : j < max_chars := lt_of_lt_of_le hjlt (min_le_left _ _)
    constructor
    · rw [truncateChars_eq_space text max_chars j (by omega) hrf hj]
      rw [List.take_take, min_eq_left (le_of_lt hjmax)]
    · rw [List.get?_take hjmax] at hsp
      exact hsp

/-- C6 witness for the amended theorem: `"abcdefghi jklmno"` truncated at 10
cuts at the space (index 9, past 80% of the limit). -/
theorem C6_witness :
    (truncateChars ("abcdefghi jklmno".data) 10).length ≤ 10 + 3 ∧
    (truncateChars ("abcdefghi jklmno".data) 10
        = ("abcdefghi jklmno".data).take 9 ++ "...".data ∧
      ("abcdefghi jklmno".data).get? 9 = some ' ') := by
  have h := C6_truncation_amended ("abcdefghi jklmno".data) 10
  exact ⟨h.1, h.2 9 (by decide) (by decide) (by decide)⟩

/-! Part: Diversity selection (C4, C5) -/

theorem data_append (a b : String) : (a ++ b).data = a.data ++ b.data := by
  cases a; cases b; rfl

theorem head_of_append (a b : String) (c : Char) (h : a.data.head? = some c) :
    ((a ++ b).data).head? = some c := by
  rw [data_append]
  cases ha : a.data with
  | nil => rw [ha] at h; simp at h
  | cons x xs =>
    rw [ha] at h
    simp only [List.head?] at h
    simp [h]

theorem ne_diversity_tag (s : String) (c : Char) (h : s.data.head? = some c)
    (hc : c ≠ 'a') : s ≠ "added for diversity" := by
  intro he
  rw [he] at h
  have hh : ("added for diversity").data.head? = some 'a' := by decide
  rw [hh] at h
  exact hc (Option.some.inj h).symm

theorem ne_tag_of_append_head (p rest : String) (c : Char)
    (h : p.data.head? = some c) (hc : c ≠ 'a') :
    p ++ rest ≠ "added for diversity" :=
  ne_diversity_tag _ c (head_of_append p rest c h) hc

/-- A primary-pass `why_picked` string always starts with `"dense #"`,
`"sparse #"` or `"rerank score "` and is therefore never the forced-pass tag. -/
theorem whyPickedFor_ne_diversity_tag (hit : SearchHit) :
    whyPickedFor hit ≠ "added for diversity" := by
  unfold whyPickedFor
  by_cases hd : pyTruthyNat hit.payload.dense_rank = true
  · by_cases hs : pyTruthyNat hit.payload.sparse_rank = true
    · rw [if_pos hd, if_pos hs]
      simp only [List.cons_append, List.nil_append, pyJoin]
      exact ne_tag_of_append_head _ _ 'd'
        (head_of_append _ _ _ (head_of_append _ _ _ (by decide))) (by decide)
    · rw [if_pos hd, if_neg hs]
      simp only [List.cons_append, List.nil_append, pyJoin]
      exact ne_tag_of_append_head _ _ 'd'
        (head_of_append _ _ _ (head_of_append _ _ _ (by decide))) (by decide)
  · by_cases hs : pyTruthyNat hit.payload.sparse_rank = true
    · rw [if_neg hd, if_pos hs]
      simp only [List.cons_append, List.nil_append, pyJoin]
      exact ne_tag_of_append_head _ _ 's'
        (head_of_append _ _ _ (head_of_append _ _ _ (by decide))) (by decide)
    · rw [if_neg hd, if_neg hs]
      simp only [List.cons_append, List.nil_append, pyJoin]
      exact ne_tag_of_append_head _ _ 'r' (by decide) (by decide)

/-- Final `rank` fields are exactly `1 .. N` in admission order. -/
def ranksContiguous (result : List ContextChunk) : Prop :=
  result.map ContextChunk.rank = List.range' 1 result.length

theorem ranksContiguous_nil : ranksContiguous [] := by
  simp [ranksContiguous]

theorem ranksContiguous_append (result : List ContextChunk) (c : ContextChunk)
    (h : ranksContiguous result) (hc : c.rank = result.length + 1) :
    ranksContiguous (result ++ [c]) := by
  unfold ranksContiguous at *
  rw [List.map_append, h, List.length_append]
  simp only [List.map_cons, List.map_nil, List.length_cons, List.length_nil]
  rw [hc, List.range'_concat]
  simp
  omega

theorem diversityPrimary_ranks (max_per_doc max_chars : Nat) :
    ∀ (hits : List SearchHit) (counts : String → Nat) (seen : List String)
      (result : List ContextChunk), ranksContiguous result →
      ranksContiguous (diversityPrimary max_per_doc max_chars hits counts seen result).2.2 := by
  intro hits
  induction hits with
  | nil => intro counts seen result h; simpa [diversityPrimary] using h
  | cons hit rest ih =>
    intro counts seen result h
    by_cases hcap : max_per_doc ≤ counts hit.doc_id
    · rw [show diversityPrimary max_per_doc max_chars (hit :: rest) counts seen result
          = diversityPrimary max_per_doc max_chars rest counts seen result by
        simp [diversityPrimary, hcap]]
      exact ih counts seen result h
    · rw [show diversityPrimary max_per_doc max_chars (hit :: rest) counts seen result
          = diversityPrimary max_per_doc max_chars rest
              (fun d => if d = hit.doc_id then counts hit.doc_id + 1 else counts d)
              (if hit.doc_id ∈ seen then seen else hit.doc_id :: seen)
              (result ++ [hitToChunk hit max_chars (result.length + 1) (whyPickedFor hit)]) by
        simp [diversityPrimary, hcap]]
      exact ih _ _ _ (ranksContiguous_append result _ h rfl)

theorem diversityForce_ranks (min_docs max_chars : Nat) :
    ∀ (hits : List SearchHit) (counts : String → Nat) (seen : List String)
      (result : List ContextChunk), ranksContiguous result →
      ranksContiguous (diversityForce min_docs max_chars hits counts seen result).2 := by
  intro hits
  induction hits with
  | nil => intro counts seen result h; simpa [diversityForce] using h
  | cons hit rest ih =>
    intro counts seen result h
    by_cases hseen : hit.doc_id ∈ seen
    · rw [show diversityForce min_docs max_chars (hit :: rest) counts seen result
          = diversityForce min_docs max_chars rest counts seen result by
        simp [diversityForce, hseen]]
      exact ih counts seen result h
    · have hnext := ranksContiguous_append result
        (hitToChunk hit max_chars (result.length + 1) "added for diversity") h rfl
      by_cases hstop : min_docs ≤ (hit.doc_id :: seen).length
      · rw [show diversityForce min_docs max_chars (hit :: rest) counts seen result
            = ((hit.doc_id :: seen),
               result ++ [hitToChunk hit max_chars (result.length + 1) "added for diversity"]) by
          simp only [diversityForce, if_neg hseen]
          rw [if_pos hstop]]
        exact hnext
      · rw [show diversityForce min_docs max_chars (hit :: rest) counts seen result
            = diversityForce min_docs max_chars rest
                (fun d => if d = hit.doc_id then 1 else counts d) (hit.doc_id :: seen)
                (result ++ [hitToChunk hit max_chars (result.length + 1) "added for diversity"]) by
          simp only [diversityForce, if_neg hseen]
          rw [if_neg hstop]]
        exact ih _ _ _ hnext

/-- C5: the `rank` fields of the list produced by `_apply_diversity` are
exactly `1, 2, …, N` in admission order, N the result size — contiguous,
no duplicates, no gaps — including when the forced minimum-docs pass adds
chunks. -/
theorem C5_rank_contiguity (hits : List SearchHit) (max_per_doc min_docs max_chars : Nat) :
    (apply_diversity hits max_per_doc min_docs max_chars).map ContextChunk.rank =
      List.range' 1 (apply_diversity hits max_per_doc min_docs max_chars).length := by
  show ranksContiguous (apply_diversity hits max_per_doc min_docs max_chars)
  have hp := diversityPrimary_ranks max_per_doc max_chars hits (fun _ => 0) [] []
    ranksContiguous_nil
  rcases hEq : diversityPrimary max_per_doc max_chars hits (fun _ => 0) [] []
    with ⟨counts, seen, result⟩
  rw [hEq] at hp
  simp only [apply_diversity, hEq]
  by_cases hmin : seen.length < min_docs
  · rw [if_pos hmin]
    exact diversityForce_ranks min_docs max_chars hits counts seen result hp
  · rw [if_neg hmin]
    exact hp

/-- The unflagged-chunk test of the diversity-cap claim: the chunk belongs
to document `d` and its `why_picked` is not the forced-pass tag. -/
def noflagPred (d : String) (c : ContextChunk) : Bool :=
  c.doc_id == d && !(c.why_picked == "added for diversity")

/-- Per-document count of chunks not carrying the forced-pass tag. -/
def noflagCount (result : List ContextChunk) (d : String) : Nat :=
  (result.filter (noflagPred d)).length

theorem noflagCount_append_pos (result : List ContextChunk) (c : ContextChunk) (d : String)
    (h : noflagPred d c = true) :
    noflagCount (result ++ [c]) d = noflagCount result d + 1 := by
  simp [noflagCount, List.filter_append, h]

theorem noflagCount_append_neg (result : List ContextChunk) (c : ContextChunk) (d : String)
    (h : noflagPred d c = false) :
    noflagCount (result ++ [c]) d = noflagCount result d := by
  simp [noflagCount, List.filter_append, h]

theorem diversityPrimary_cap (max_per_doc max_chars : Nat) (d : String) :
    ∀ (hits : List SearchHit) (counts : String → Nat) (seen : List String)
      (result : List ContextChunk),
      noflagCount result d ≤ counts d → counts d ≤ max_per_doc →
      noflagCount (diversityPrimary max_per_doc max_chars hits counts seen result).2.2 d ≤
        max_per_doc := by
  intro hits
  induction hits with
  | nil =>
    intro counts seen result h1 h2
    simp only [diversityPrimary]
    omega
  | cons hit rest ih =>
    intro counts seen result h1 h2
    by_cases hcap : max_per_doc ≤ counts hit.doc_id
    · rw [show diversityPrimary max_per_doc max_chars (hit :: rest) counts seen result
          = diversityPrimary max_per_doc max_chars rest counts seen result by
        simp [diversityPrimary, hcap]]
      exact ih counts seen result h1 h2
    · rw [show diversityPrimary max_per_doc max_chars (hit :: rest) counts seen result
          = diversityPrimary max_per_doc max_chars rest
              (fun d' => if d' = hit.doc_id then counts hit.doc_id + 1 else counts d')
              (if hit.doc_id ∈ seen then seen else hit.doc_id :: seen)
              (result ++ [hitToChunk hit max_chars (result.length + 1) (whyPickedFor hit)]) by
        simp [diversityPrimary, hcap]]
      by_cases hdoc : hit.doc_id = d
      · subst hdoc
        have hpred : noflagPred hit.doc_id
            (hitToChunk hit max_chars (result.length + 1) (whyPickedFor hit)) = true := by
          simp [noflagPred, hitToChunk, whyPickedFor_ne_diversity_tag hit]
        refine ih _ _ _ ?_ ?_
        · rw [noflagCount_append_pos result _ _ hpred, if_pos rfl]
          omega
        · rw [if_pos rfl]
          omega
      · have hpred : noflagPred d
            (hitToChunk hit max_chars (result.length + 1) (whyPickedFor hit)) = false := by
          simp [noflagPred, hitToChunk, hdoc]
        refine ih _ _ _ ?_ ?_
        · rw [noflagCount_append_neg result _ _ hpred, if_neg (fun hc => hdoc hc.symm)]
          exact h1
        · rw [if_neg (fun hc => hdoc hc.symm)]
          exact h2

theorem diversityForce_noflag (min_docs max_chars : Nat) (d : String) :
    ∀ (hits : List SearchHit) (counts : String → Nat) (seen : List String)
      (result : List ContextChunk),
      noflagCount (diversityForce min_docs max_chars hits counts seen result).2 d =
        noflagCount result d := by
  intro hits
  induction hits with
  | nil => intro counts seen result; simp [diversityForce]
  | cons hit rest ih =>
    intro counts seen result
    have hpred : noflagPred d
        (hitToChunk hit max_chars (result.length + 1) "added for diversity") = false := by
      simp [noflagPred, hitToChunk]
    have hflag := noflagCount_append_neg result
      (hitToChunk hit max_chars (result.length + 1) "added for diversity") d hpred
    by_cases hseen : hit.doc_id ∈ seen
    · rw [show diversityForce min_docs max_chars (hit :: rest) counts seen result
          = diversityForce min_docs max_chars rest counts seen result by
        simp [diversityForce, hseen]]
      exact ih counts seen result
    · by_cases hstop : min_docs ≤ (hit.doc_id :: seen).length
      · rw [show diversityForce min_docs max_chars (hit :: rest) counts seen result
            = ((hit.doc_id :: seen),
               result ++ [hitToChunk hit max_chars (result.length + 1) "added for diversity"]) by
          simp only [diversityForce, if_neg hseen]
          rw [if_pos hstop]]
        exact hflag
      · rw [show diversityForce min_docs max_chars (hit :: rest) counts seen result
            = diversityForce min_docs max_chars rest
                (fun d' => if d' = hit.doc_id then 1 else counts d') (hit.doc_id :: seen)
                (result ++ [hitToChunk hit max_chars (result.length + 1) "added for diversity"]) by
          simp only [diversityForce, if_neg hseen]
          rw [if_neg hstop]]
        rw [ih]
        exact hflag

/-- C4: in the final output of `_apply_diversity` with `max_per_doc ≥ 1`,
for every document id the number of chunks not flagged
`"added for diversity"` is at most `max_per_doc`: the per-document cap can
only be exceeded by forced-pass admissions, and those always carry the flag
in `why_picked`. -/
theorem C4_diversity_cap (hits : List SearchHit) (max_per_doc min_docs max_chars : Nat)
    (hmpd : 1 ≤ max_per_doc) (d : String) :
    ((apply_diversity hits max_per_doc min_docs max_chars).filter
      (fun c => c.doc_id == d && !(c.why_picked == "added for diversity"))).length ≤
      max_per_doc := by
  show noflagCount (apply_diversity hits max_per_doc min_docs max_chars) d ≤ max_per_doc
  have hp := diversityPrimary_cap max_per_doc max_chars d hits (fun _ => 0) [] []
    (by simp [noflagCount]) (by simp)
  rcases hEq : diversityPrimary max_per_doc max_chars hits (fun _ => 0) [] []
    with ⟨counts, seen, result⟩
  rw [hEq] at hp
  simp only [apply_diversity, hEq]
  by_cases hmin : seen.length < min_docs
  · rw [if_pos hmin]
    rw [diversityForce_noflag min_docs max_chars d hits counts seen result]
    exact hp
  · rw [if_neg hmin]
    exact hp

/-- Sample reranked hits for the diversity witnesses. -/
def hitA0 : SearchHit := ⟨21, "A", 0, "first chunk of A", 9/10, "reranked", Payload.empty⟩

def hitA1 : SearchHit := ⟨22, "A", 1, "second chunk of A", 8/10, "reranked", Payload.empty⟩

def hitB0 : SearchHit := ⟨23, "B", 0, "chunk of B", 7/10, "reranked", Payload.empty⟩

/-- C4 witness: with `max_per_doc = 1` the unflagged count of document `"A"`
stays within the cap. -/
theorem C4_witness :
    ((apply_diversity [hitA0, hitA1, hitB0] 1 2 1600).filter
      (fun c => c.doc_id == "A" && !(c.why_picked == "added for diversity"))).length ≤ 1 :=
  C4_diversity_cap [hitA0, hitA1, hitB0] 1 2 1600 (by decide) "A"

/-! Part: Loop branch equations and the orchestrator claims (C7, C9, C10) -/

theorem loopGo_zero (st : Stores) (query dense_query sparse_query : String)
    (must_terms : List String) (rrf_k : Nat) (max_iters : Int)
    (ci : Nat) (tk : TopKConfig) (dbg : DebugInfoM) :
    loopGo st query dense_query sparse_query must_terms rrf_k max_iters 0 ci tk dbg =
      ⟨[], ci, tk, dbg, []⟩ := rfl

theorem loopGo_stop (st : Stores) (query dense_query sparse_query : String)
    (must_terms : List String) (rrf_k : Nat) (max_iters : Int)
    (fuel fuel' ci : Nat) (tk : TopKConfig) (dbg : DebugInfoM)
    (hf : fuel = fuel' + 1) (hci : ¬ ((ci : Int) < max_iters)) :
    loopGo st query dense_query sparse_query must_terms rrf_k max_iters fuel ci tk dbg =
      ⟨[], ci, tk, dbg, []⟩ := by
  subst hf
  simp only [loopGo]
  rw [if_neg hci]

theorem loopGo_break (st : Stores) (query dense_query sparse_query : String)
    (must_terms : List String) (rrf_k : Nat) (max_iters : Int)
    (fuel fuel' ci : Nat) (tk : TopKConfig) (dbg : DebugInfoM)
    (hf : fuel = fuel' + 1) (hci : (ci : Int) < max_iters)
    (hbr : (!must_terms.isEmpty &&
        !(runCycle st query dense_query sparse_query tk rrf_k).reranked.isEmpty) = true →
      ¬ (5 * coveredCount (runCycle st query dense_query sparse_query tk rrf_k).reranked
            must_terms <
          2 * min 5 (runCycle st query dense_query sparse_query tk rrf_k).reranked.length ∧
          ((ci + 1 : Nat) : Int) < max_iters)) :
    loopGo st query dense_query sparse_query must_terms rrf_k max_iters fuel ci tk dbg =
      ⟨(runCycle st query dense_query sparse_query tk rrf_k).reranked, ci + 1, tk,
        dbgAfterCycle dbg (runCycle st query dense_query sparse_query tk rrf_k), [tk]⟩ := by
  subst hf
  by_cases hg : (!must_terms.isEmpty &&
      !(runCycle st query dense_query sparse_query tk rrf_k).reranked.isEmpty) = true
  · simp only [loopGo]
    rw [if_pos hci, if_pos hg, if_neg (hbr hg)]
  · simp only [loopGo]
    rw [if_pos hci, if_neg hg]

theorem loopGo_continue (st : Stores) (query dense_query sparse_query : String)
    (must_terms : List String) (rrf_k : Nat) (max_iters : Int)
    (fuel fuel' ci : Nat) (tk : TopKConfig) (dbg : DebugInfoM)
    (hf : fuel = fuel' + 1) (hci : (ci : Int) < max_iters)
    (hg : (!must_terms.isEmpty &&
        !(runCycle st query dense_query sparse_query tk rrf_k).reranked.isEmpty) = true)
    (hc : 5 * coveredCount (runCycle st query dense_query sparse_query tk rrf_k).reranked
          must_terms <
        2 * min 5 (runCycle st query dense_query sparse_query tk rrf_k).reranked.length ∧
        ((ci + 1 : Nat) : Int) < max_iters) :
    loopGo st query dense_query sparse_query must_terms rrf_k max_iters fuel ci tk dbg =
      ⟨(loopGo st query dense_query sparse_query must_terms rrf_k max_iters fuel' (ci + 1)
          (widenTopK tk)
          (dbgExpanded dbg (runCycle st query dense_query sparse_query tk rrf_k) (ci + 1)
            must_terms)).final_reranked,
        (loopGo st query dense_query sparse_query must_terms rrf_k max_iters fuel' (ci + 1)
          (widenTopK tk)
          (dbgExpanded dbg (runCycle st query dense_query sparse_query tk rrf_k) (ci + 1)
            must_terms)).current_iter,
        (loopGo st query dense_query sparse_query must_terms rrf_k max_iters fuel' (ci + 1)
          (widenTopK tk)
          (dbgExpanded dbg (runCycle st query dense_query sparse_query tk rrf_k) (ci + 1)
            must_terms)).topk,
        (loopGo st query dense_query sparse_query must_terms rrf_k max_iters fuel' (ci + 1)
          (widenTopK tk)
          (dbgExpanded dbg (runCycle st query dense_query sparse_query tk rrf_k) (ci + 1)
            must_terms)).debug,
        tk :: (loopGo st query dense_query sparse_query must_terms rrf_k max_iters fuel' (ci + 1)
          (widenTopK tk)
          (dbgExpanded dbg (runCycle st query dense_query sparse_query tk rrf_k) (ci + 1)
            must_terms)).trace⟩ := by
  subst hf
  simp only [loopGo]
  rw [if_pos hci, if_pos hg, if_pos hc]

/-- The empty ranked list yields an empty diversity selection. -/
theorem apply_diversity_nil (max_per_doc min_docs max_chars : Nat) :
    apply_diversity [] max_per_doc min_docs max_chars = [] := by
  simp [apply_diversity, diversityPrimary, diversityForce]

/-- C10: a non-positive `max_iters` budget makes `retrieve_and_rerank` skip
the search loop entirely — no dense or sparse search is performed (empty
trace) and the final `ContextChunk` list is empty, whatever the stores
contain. -/
theorem C10_nonpositive_budget_returns_empty
    (st : Stores) (query dense_query sparse_query : String) (must_terms : List String)
    (topk : TopKConfig) (rrf_k : Nat) (max_iters : Int)
    (diversity : DiversityConfig) (max_chars : Nat) (h : max_iters ≤ 0) :
    (retrieve_and_rerank st query dense_query sparse_query must_terms topk rrf_k max_iters
        diversity max_chars).chunks = [] ∧
    (retrieve_and_rerank st query dense_query sparse_query must_terms topk rrf_k max_iters
        diversity max_chars).trace = [] := by
  have htn : max_iters.toNat = 0 := Int.toNat_of_nonpos h
  constructor
  · simp [retrieve_and_rerank, htn, loopGo_zero, apply_diversity_nil]
  · simp [retrieve_and_rerank, htn, loopGo_zero]

/-- Per-loop invariant behind C9: the number of executed search cycles is
bounded by the fuel, and every cycle after the first happened only because
the previous cycle satisfied the coverage-expansion condition with
iterations remaining. -/
theorem loopGo_trace_spec (st : Stores) (query dense_query sparse_query : String)
    (must_terms : List String) (rrf_k : Nat) (max_iters : Int) :
    ∀ (fuel ci : Nat) (tk : TopKConfig) (dbg : DebugInfoM),
      (loopGo st query dense_query sparse_query must_terms rrf_k max_iters
        fuel ci tk dbg).trace.length ≤ fuel ∧
      ∀ i, i + 1 < (loopGo st query dense_query sparse_query must_terms rrf_k max_iters
          fuel ci tk dbg).trace.length →
        ∃ tki, (loopGo st query dense_query sparse_query must_terms rrf_k max_iters
            fuel ci tk dbg).trace.get? i = some tki ∧
          expandCond st query dense_query sparse_query must_terms rrf_k tki = true ∧
          ((ci : Int) + (i : Int) + 1 < max_iters) := by
  intro fuel
  induction fuel with
  | zero =>
    intro ci tk dbg
    rw [loopGo_zero]
    exact ⟨by simp, fun i hi => by simp at hi⟩
  | succ fuel ih =>
    intro ci tk dbg
    by_cases hci : (ci : Int) < max_iters
    · by_cases hg : (!must_terms.isEmpty &&
          !(runCycle st query dense_query sparse_query tk rrf_k).reranked.isEmpty) = true
      · by_cases hc : 5 * coveredCount
              (runCycle st query dense_query sparse_query tk rrf_k).reranked must_terms <
            2 * min 5 (runCycle st query dense_query sparse_query tk rrf_k).reranked.length ∧
            ((ci + 1 : Nat) : Int) < max_iters
        · rw [loopGo_continue st query dense_query sparse_query must_terms rrf_k max_iters
            (fuel + 1) fuel ci tk dbg rfl hci hg hc]
          obtain ⟨ihlen, ihspec⟩ := ih (ci + 1) (widenTopK tk)
            (dbgExpanded dbg (runCycle st query dense_query sparse_query tk rrf_k) (ci + 1)
              must_terms)
          constructor
          · simp only [List.length_cons]
            omega
          · intro i hi
            match i with
            | 0 =>
              refine ⟨tk, by simp, ?_, ?_⟩
              · simp only [expandCond]
                rw [hg]
                simp [hc.1]
              · have := hc.2
                push_cast at this ⊢
                omega
            | Nat.succ j =>
              simp only [List.length_cons] at hi
              obtain ⟨tki, h1, h2, h3⟩ := ihspec j (by omega)
              refine ⟨tki, by simpa using h1, h2, ?_⟩
              push_cast at h3 ⊢
              omega
        · rw [loopGo_break st query dense_query sparse_query must_terms rrf_k max_iters
            (fuel + 1) fuel ci tk dbg rfl hci (fun _ => hc)]
          refine ⟨by simp, fun i hi => ?_⟩
          simp only [List.length_cons, List.length_nil] at hi
          omega
      · rw [loopGo_break st query dense_query sparse_query must_terms rrf_k max_iters
          (fuel + 1) fuel ci tk dbg rfl hci (fun h => absurd h hg)]
        refine ⟨by simp, fun i hi => ?_⟩
        simp only [List.length_cons, List.length_nil] at hi
        omega
    · rw [loopGo_stop st query dense_query sparse_query must_terms rrf_k max_iters
        (fuel + 1) fuel ci tk dbg rfl hci]
      exact ⟨by simp, fun i hi => by simp at hi⟩

/-- C9: `retrieve_and_rerank` executes the dense/sparse/fuse/rerank cycle at
most `max(maxIters, 0)` times, and a further cycle runs only when the
previous cycle's must-have terms were non-empty, its reranked list non-empty,
its coverage ratio below 0.4 (`5·covered < 2·min(5, n)`), and iterations
remained in the budget; no unbounded retry is possible. -/
theorem C9_loop_bounded (st : Stores) (query dense_query sparse_query : String)
    (must_terms : List String) (topk : TopKConfig) (rrf_k : Nat) (max_iters : Int)
    (diversity : DiversityConfig) (max_chars : Nat) :
    (retrieve_and_rerank st query dense_query sparse_query must_terms topk rrf_k max_iters
      diversity max_chars).trace.length ≤ max_iters.toNat ∧
    ∀ i, i + 1 < (retrieve_and_rerank st query dense_query sparse_query must_terms topk rrf_k
        max_iters diversity max_chars).trace.length →
      ∃ tki, (retrieve_and_rerank st query dense_query sparse_query must_terms topk rrf_k
          max_iters diversity max_chars).trace.get? i = some tki ∧
        expandCond st query dense_query sparse_query must_terms rrf_k tki = true ∧
        ((i : Int) + 1 < max_iters) := by
  obtain ⟨hlen, hspec⟩ := loopGo_trace_spec st query dense_query sparse_query must_terms rrf_k
    max_iters max_iters.toNat 0 topk
    { DebugInfoM.init with
      params := some ⟨topk, rrf_k, max_iters, diversity⟩,
      notes := if must_terms.isEmpty then [] else [mustTermsNote must_terms] }
  constructor
  · simpa only [retrieve_and_rerank] using hlen
  · intro i hi
    obtain ⟨tki, h1, h2, h3⟩ := hspec i (by simpa only [retrieve_and_rerank] using hi)
    refine ⟨tki, by simpa only [retrieve_and_rerank] using h1, h2, ?_⟩
    push_cast at h3 ⊢
    omega

/-- Shape of a `maxIters = 2` run whose first pass has non-empty must-have
terms, a non-empty reranked list, and zero covered terms: the loop runs
exactly twice, the expansion note is recorded, the second pass's searches
use the widened `topk`, and `debug.params` keeps the pre-widening snapshot. -/
theorem retrieve_two_iter_shape
    (st : Stores) (query dense_query sparse_query : String) (must_terms : List String)
    (topk : TopKConfig) (rrf_k : Nat) (diversity : DiversityConfig) (max_chars : Nat)
    (hmt : must_terms ≠ [])
    (hre : (runCycle st query dense_query sparse_query topk rrf_k).reranked ≠ [])
    (hcov : coveredCount (runCycle st query dense_query sparse_query topk rrf_k).reranked
      must_terms = 0) :
    expansionNote 1 0 ∈ (retrieve_and_rerank st query dense_query sparse_query must_terms topk
        rrf_k 2 diversity max_chars).debug.notes ∧
    (retrieve_and_rerank st query dense_query sparse_query must_terms topk rrf_k 2 diversity
        max_chars).trace = [topk, widenTopK topk] ∧
    (retrieve_and_rerank st query dense_query sparse_query must_terms topk rrf_k 2 diversity
        max_chars).debug.params = some ⟨topk, rrf_k, 2, diversity⟩ := by
  have hg : (!must_terms.isEmpty &&
      !(runCycle st query dense_query sparse_query topk rrf_k).reranked.isEmpty) = true := by
    simp [List.isEmpty_iff, hmt, hre]
  have hm1 : 1 ≤ min 5 (runCycle st query dense_query sparse_query topk rrf_k).reranked.length := by
    have hlen : (runCycle st query dense_query sparse_query topk rrf_k).reranked.length ≠ 0 := by
      simpa [List.length_eq_zero] using hre
    exact le_min (by omega) (by omega)
  have hc : 5 * coveredCount (runCycle st query dense_query sparse_query topk rrf_k).reranked
        must_terms <
      2 * min 5 (runCycle st query dense_query sparse_query topk rrf_k).reranked.length ∧
      ((0 + 1 : Nat) : Int) < 2 := by
    constructor
    · rw [hcov]; omega
    · decide
  have hnote : ((coveredCount (runCycle st query dense_query sparse_query topk rrf_k).reranked
        must_terms : ℚ) /
      ((min 5 (runCycle st query dense_query sparse_query topk rrf_k).reranked.length : Nat) : ℚ))
      = 0 := by
    rw [hcov]
    simp
  simp only [retrieve_and_rerank]
  rw [show ((2 : Int).toNat) = 2 from rfl]
  rw [loopGo_continue st query dense_query sparse_query must_terms rrf_k 2 2 1 0 topk
    { DebugInfoM.init with
      params := some ⟨topk, rrf_k, 2, diversity⟩,
      notes := if must_terms.isEmpty then [] else [mustTermsNote must_terms] }
    rfl (by decide) hg hc]
  rw [loopGo_break st query dense_query sparse_query must_terms rrf_k 2 1 0 (0 + 1)
    (widenTopK topk)
    (dbgExpanded
      { DebugInfoM.init with
        params := some ⟨topk, rrf_k, 2, diversity⟩,
        notes := if must_terms.isEmpty then [] else [mustTermsNote must_terms] }
      (runCycle st query dense_query sparse_query topk rrf_k) (0 + 1) must_terms)
    rfl (by decide) (fun _ hcc => absurd hcc.2 (by decide))]
  refine ⟨?_, by simp, by simp [dbgExpanded, dbgAfterCycle]⟩
  simp only [dbgExpanded, dbgAfterCycle, hnote]
  simp [List.isEmpty_iff, hmt]

/-- C7 amended: when the must-have terms are non-empty, the first pass
produces a non-empty reranked list, and no must-have term is covered by its
top-5 texts (`covered = 0`), a run with `maxIters = 2` adds the expansion
note to `debug.notes` and performs the second pass with the widened
(`⌊n·6/5⌋`) dense/sparse pools — but `debug.params` keeps the original,
pre-widening `topk` snapshot. -/
theorem C7_expansion_amended
    (st : Stores) (query dense_query sparse_query : String) (must_terms : List String)
    (topk : TopKConfig) (rrf_k : Nat) (diversity : DiversityConfig) (max_chars : Nat)
    (hmt : must_terms ≠ [])
    (hre : (runCycle st query dense_query sparse_query topk rrf_k).reranked ≠ [])
    (hcov : coveredCount (runCycle st query dense_query sparse_query topk rrf_k).reranked
      must_terms = 0) :
    expansionNote 1 0 ∈ (retrieve_and_rerank st query dense_query sparse_query must_terms topk
        rrf_k 2 diversity max_chars).debug.notes ∧
    (retrieve_and_rerank st query dense_query sparse_query must_terms topk rrf_k 2 diversity
        max_chars).trace = [topk, widenTopK topk] ∧
    (retrieve_and_rerank st query dense_query sparse_query must_terms topk rrf_k 2 diversity
        max_chars).debug.params = some ⟨topk, rrf_k, 2, diversity⟩ :=
  retrieve_two_iter_shape st query dense_query sparse_query must_terms topk rrf_k diversity
    max_chars hmt hre hcov

/-- Concrete stores for the orchestrator witnesses: one dense hit not
containing the must-have acronym, an empty sparse index, and a reranker that
keeps the fused order. -/
def hitC7D : SearchHit := ⟨31, "D", 0, "no acronym here", 9/10, "dense", Payload.empty⟩

def storesC7 : Stores :=
  ⟨fun _ _ => [hitC7D], fun _ _ => [], fun _ hits k => hits.take k⟩

/-- C7 counterexample to the claim as stated: in a concrete
coverage-triggered-expansion run with `maxIters = 2`, the expansion note is
present and the second pass really used the widened pools
(`72 = ⌊60·1.2⌋`, visible in the trace) — but `debug.params` still shows the
original `topk` (dense 60), so `debug.params["topk"]` does **not** reflect
the widened pool sizes. -/
theorem C7_counterexample :
    expansionNote 1 0 ∈ (retrieve_and_rerank storesC7 "what is XYZ" "what is XYZ" "xyz" ["xyz"]
        TopKConfig.default 60 2 DiversityConfig.default 1600).debug.notes ∧
    (retrieve_and_rerank storesC7 "what is XYZ" "what is XYZ" "xyz" ["xyz"]
        TopKConfig.default 60 2 DiversityConfig.default 1600).trace
      = [TopKConfig.default, widenTopK TopKConfig.default] ∧
    (widenTopK TopKConfig.default).dense = 72 ∧
    (retrieve_and_rerank storesC7 "what is XYZ" "what is XYZ" "xyz" ["xyz"]
        TopKConfig.default 60 2 DiversityConfig.default 1600).debug.params
      = some ⟨TopKConfig.default, 60, 2, DiversityConfig.default⟩ ∧
    TopKConfig.default.dense = 60 := by
  have h := retrieve_two_iter_shape storesC7 "what is XYZ" "what is XYZ" "xyz" ["xyz"]
    TopKConfig.default 60 DiversityConfig.default 1600 (by decide) (by decide) (by decide)
  exact ⟨h.1, h.2.1, by decide, h.2.2, by decide⟩

/-- C7 witness for the amended theorem, at the concrete scenario. -/
theorem C7_witness :
    expansionNote 1 0 ∈ (retrieve_and_rerank storesC7 "what is XYZ" "what is XYZ" "xyz" ["xyz"]
        TopKConfig.default 60 2 DiversityConfig.default 1600).debug.notes ∧
    (retrieve_and_rerank storesC7 "what is XYZ" "what is XYZ" "xyz" ["xyz"]
        TopKConfig.default 60 2 DiversityConfig.default 1600).trace
      = [TopKConfig.default, widenTopK TopKConfig.default] ∧
    (retrieve_and_rerank storesC7 "what is XYZ" "what is XYZ" "xyz" ["xyz"]
        TopKConfig.default 60 2 DiversityConfig.default 1600).debug.params
      = some ⟨TopKConfig.default, 60, 2, DiversityConfig.default⟩ :=
  C7_expansion_amended storesC7 "what is XYZ" "what is XYZ" "xyz" ["xyz"] TopKConfig.default 60
    DiversityConfig.default 1600 (by decide) (by decide) (by decide)

/-- C9 witness: the concrete scenario runs exactly two cycles within the
budget, and the second cycle was justified by the expansion condition. -/
theorem C9_witness :
    (retrieve_and_rerank storesC7 "what is XYZ" "what is XYZ" "xyz" ["xyz"]
        TopKConfig.default 60 2 DiversityConfig.default 1600).trace.length ≤ (2 : Int).toNat ∧
    ∃ tki, (retrieve_and_rerank storesC7 "what is XYZ" "what is XYZ" "xyz" ["xyz"]
        TopKConfig.default 60 2 DiversityConfig.default 1600).trace.get? 0 = some tki ∧
      expandCond storesC7 "what is XYZ" "what is XYZ" "xyz" ["xyz"] 60 tki = true ∧
      (((0 : Nat) : Int) + 1 < 2) := by
  have h := C9_loop_bounded storesC7 "what is XYZ" "what is XYZ" "xyz" ["xyz"]
    TopKConfig.default 60 2 DiversityConfig.default 1600
  exact ⟨h.1, h.2 0 (by decide)⟩

/-- C10 witness: with `max_iters = 0` nothing is searched and nothing is
returned, despite non-empty stores. -/
theorem C10_witness :
    (retrieve_and_rerank storesC7 "q" "q" "q" ["xyz"] TopKConfig.default 60 0
        DiversityConfig.default 1600).chunks = [] ∧
    (retrieve_and_rerank storesC7 "q" "q" "q" ["xyz"] TopKConfig.default 60 0
        DiversityConfig.default 1600).trace = [] :=
  C10_nonpositive_budget_returns_empty storesC7 "q" "q" "q" ["xyz"] TopKConfig.default 60 0
    DiversityConfig.default 1600 (by decide)

/-! Part: Filters (C8) -/

/-- C8: for every non-empty `RetrievalFilters` value, `_build_filter`
evaluates the attribute access `filters.source` on a dataclass that has no
`source` field, so dense search raises `AttributeError` instead of
searching; the no-error behaviour the spec requires is unreachable for every
valid non-empty filter. -/
theorem C8_build_filter_attribute_error (f : RetrievalFilters) (h : f.is_empty = false) :
    build_filter (some f) =
      Except.error "AttributeError: RetrievalFilters object has no attribute source" := by
  simp only [build_filter]
  rw [if_neg (by simp [h])]

/-- C8 witness: the minimal valid filter `RetrievalFilters(tenant_id="t1")`
already triggers the `AttributeError`. -/
theorem C8_witness :
    build_filter (some { RetrievalFilters.empty with tenant_id := some "t1" }) =
      Except.error "AttributeError: RetrievalFilters object has no attribute source" :=
  C8_build_filter_attribute_error _ (by decide)

end RagRetrieval
